import Mathlib

/-!
Verification of the maze-game core (`src/main.rs`).

The development shallowly embeds the Rust source:
* `Tile`, mazes as total functions `Nat → Nat → Tile` (the Rust `Vec<Vec<TileType>>`,
  indexed as `maze x y` for the Rust `maze[y][x]`),
* `generate_maze` with the recursive `carve` procedure; the thread-local RNG is
  modelled as a stream `Nat → List (Int × Int)` of shuffled direction lists
  (one entry consumed per `carve` invocation), and recursion is realised with
  a fuel parameter that provably never runs out (each recursive call converts
  at least one Wall cell to Path, so `441` fuel suffices for the 21×21 grid),
* the goal-locating scans of `setup` and `restart_button_system`,
* the session-level move handling of `player_input` and `restart_button_system`,
  with `Instant` modelled as a millisecond count,
* the repeating `MoveTimer`.
-/

namespace MazeGame

inductive Tile where
  | Wall : Tile
  | Path : Tile
deriving DecidableEq, Repr

/-- `MAZE_WIDTH` from the source. -/
abbrev MAZE_WIDTH : Nat := 21

/-- `MAZE_HEIGHT` from the source. -/
abbrev MAZE_HEIGHT : Nat := 21

/-- The grid `Vec<Vec<TileType>>`, as a total function; `M x y` is `maze[y][x]`.
Cells outside the 21×21 box are never written and stay `Wall`. -/
abbrev Maze := Nat → Nat → Tile

/-- Point assignment `maze[y][x] = t`. -/
def setCell (M : Maze) (x y : Nat) (t : Tile) : Maze :=
  fun i j => if i = x ∧ j = y then t else M i j

/-- The direction list `vec![(2, 0), (-2, 0), (0, 2), (0, -2)]` of `carve`. -/
def baseDirs : List (Int × Int) := [(2, 0), (-2, 0), (0, 2), (0, -2)]

/-- Mutable state of the generator: the maze being carved, the index of the next
RNG stream entry (`thread_rng` is a single global stream, one shuffle per `carve`
call), and an instrumentation counter of Wall→Path conversions ("carve operations"
in the sense of the spec's glossary). -/
structure GenState where
  maze : Maze
  k : Nat
  carves : Nat

/-- `maze[y][x] = TileType::Path;` — the assignment always writes `Path`;
the counter records whether the write converted a Wall cell. -/
def carvePaint (s : GenState) (x y : Nat) : GenState :=
  if s.maze x y = Tile.Wall then
    { s with maze := setCell s.maze x y Tile.Path, carves := s.carves + 1 }
  else
    { s with maze := setCell s.maze x y Tile.Path }

/-- The `for (dx, dy) in dirs` loop body of `carve` (src/main.rs lines 75–86):
bounds check `nx > 0 && ny > 0 && nx < MAZE_WIDTH-1 && ny < MAZE_HEIGHT-1`, the
Wall check, carving the neighbour then the midpoint, and the recursive call.
`rec` is the recursive occurrence of `carve`. -/
def carveDirs (rec : Nat → Nat → GenState → GenState) (x y : Nat) :
    List (Int × Int) → GenState → GenState
  | [], s => s
  | (dx, dy) :: rest, s =>
    let nx : Int := (x : Int) + dx
    let ny : Int := (y : Int) + dy
    if 0 < nx ∧ 0 < ny ∧ nx.toNat < MAZE_WIDTH - 1 ∧ ny.toNat < MAZE_HEIGHT - 1 then
      if s.maze nx.toNat ny.toNat = Tile.Wall then
        let s1 := carvePaint s nx.toNat ny.toNat
        let s2 := carvePaint s1 ((x : Int) + Int.tdiv dx 2).toNat ((y : Int) + Int.tdiv dy 2).toNat
        carveDirs rec x y rest (rec nx.toNat ny.toNat s2)
      else
        carveDirs rec x y rest s
    else
      carveDirs rec x y rest s

/-- `fn carve(x, y, maze)`, with fuel making the recursion structural. Each
invocation draws one shuffled direction list from the stream `rng`. Fuel only
decreases at recursive calls, each of which is preceded by a Wall→Path
conversion, so any fuel above the Wall-cell count behaves like the unbounded
Rust recursion (`carveF_fuel_stable` below). -/
def carveF (rng : Nat → List (Int × Int)) : Nat → Nat → Nat → GenState → GenState
  | 0, _, _, s => s
  | f + 1, x, y, s => carveDirs (carveF rng f) x y (rng s.k) { s with k := s.k + 1 }

/-- The maze before carving: all `Wall`, then `maze[1][1] = Path`. -/
def initMaze : Maze := setCell (fun _ _ => Tile.Wall) 1 1 Tile.Path

/-- Fuel that provably suffices for the 21×21 grid: the initial maze has 440
Wall cells inside the box and each recursive call consumes at least one. -/
def FUEL : Nat := 441

/-- The full run of `generate_maze`’s carving pass, keeping the instrumentation. -/
def genRun (rng : Nat → List (Int × Int)) : GenState :=
  carveF rng FUEL 1 1 { maze := initMaze, k := 0, carves := 0 }

/-- `fn generate_maze() -> Maze`, parametrised by the RNG stream. -/
def generate_maze (rng : Nat → List (Int × Int)) : Maze := (genRun rng).maze

/-- The RNG model: `dirs.shuffle(&mut rng)` always yields a permutation of the
four base directions. -/
def GoodRng (rng : Nat → List (Int × Int)) : Prop :=
  ∀ k, List.Perm (rng k) baseDirs

/-! ### The goal-locating scan (`setup`, src/main.rs lines 101–110) -/

/-- Inner loop `for x in (1..MAZE_WIDTH - 1).rev()`: scan columns `b, b-1, …, 1`
of row `y` for the first `Path` cell. -/
def scanCols (M : Maze) (y : Nat) : Nat → Option (Nat × Nat)
  | 0 => none
  | x + 1 => if M (x + 1) y = Tile.Path then some (x + 1, y) else scanCols M y x

/-- Outer loop `for y in (1..MAZE_HEIGHT - 1).rev()`: scan rows `b, b-1, …, 1`. -/
def scanRows (M : Maze) : Nat → Option (Nat × Nat)
  | 0 => none
  | y + 1 =>
    match scanCols M (y + 1) (MAZE_WIDTH - 2) with
    | some p => some p
    | none => scanRows M y

/-- The goal-locating scan of `setup`: `goal_pos` starts at
`(MAZE_WIDTH - 2, MAZE_HEIGHT - 2)` and the double loop replaces it with the
first interior `Path` cell in bottom-up, right-to-left order. -/
def locate_goal (M : Maze) : Nat × Nat :=
  (scanRows M (MAZE_HEIGHT - 2)).getD (MAZE_WIDTH - 2, MAZE_HEIGHT - 2)

/-- The inner column loop as duplicated in `restart_button_system`
(src/main.rs lines 337–342). -/
def scanColsRestart (M : Maze) (y : Nat) : Nat → Option (Nat × Nat)
  | 0 => none
  | x + 1 => if M (x + 1) y = Tile.Path then some (x + 1, y) else scanColsRestart M y x

/-- The outer row loop as duplicated in `restart_button_system`. -/
def scanRowsRestart (M : Maze) : Nat → Option (Nat × Nat)
  | 0 => none
  | y + 1 =>
    match scanColsRestart M (y + 1) (MAZE_WIDTH - 2) with
    | some p => some p
    | none => scanRowsRestart M y

/-- The goal-locating scan inlined in `restart_button_system`
(src/main.rs lines 335–345). -/
def restartLocate (M : Maze) : Nat × Nat :=
  (scanRowsRestart M (MAZE_HEIGHT - 2)).getD (MAZE_WIDTH - 2, MAZE_HEIGHT - 2)

/-! ### The game session (`player_input`, `restart_button_system`) -/

/-- Arrow-key directions. -/
inductive Dir where
  | Up : Dir
  | Down : Dir
  | Left : Dir
  | Right : Dir
deriving DecidableEq

/-- The `dx`/`dy` deltas of `player_input` (ArrowUp: `dy += 1`, etc.). -/
def dirDelta : Dir → Int × Int
  | Dir.Up => (0, 1)
  | Dir.Down => (0, -1)
  | Dir.Left => (-1, 0)
  | Dir.Right => (1, 0)

/-- Rust's `as usize` on an `isize`: two's-complement wrap into `0 .. 2^64`. -/
def usizeOfInt (i : Int) : Nat := (i % (2 : Int) ^ 64).toNat

/-- The session state owned by the game: the grid, player and goal coordinates,
whether a `WinText` entity exists (the Won state), the frozen win time
(seconds, milliseconds) shown in that text, and the `StartTime` instant.
Instants are modelled as milliseconds. -/
structure Session where
  maze : Maze
  player : Nat × Nat
  goal : Nat × Nat
  won : Bool
  wonTime : Option (Nat × Nat)
  start : Nat

/-- `new_x`/`new_y` of `player_input` (src/main.rs lines 213–214):
`(pos as isize + d) as usize`. -/
def moveTarget (s : Session) (d : Dir) : Nat × Nat :=
  (usizeOfInt ((s.player.1 : Int) + (dirDelta d).1),
   usizeOfInt ((s.player.2 : Int) + (dirDelta d).2))

/-- The session-level effect of one admitted directional move in `player_input`
(src/main.rs lines 188–293): nothing happens in the Won state (the early return
on `win_text_query`); otherwise the target must be in bounds and `Path`; on
reaching the goal the elapsed time `now - start` is sampled and frozen as
`as_secs` and `subsec_millis` and the session enters the Won state. -/
def apply_move (s : Session) (d : Dir) (now : Nat) : Session :=
  if s.won then s
  else
    let t := moveTarget s d
    if t.1 < MAZE_WIDTH ∧ t.2 < MAZE_HEIGHT ∧ s.maze t.1 t.2 = Tile.Path then
      let s1 := { s with player := t }
      if s1.player = s1.goal then
        let e := now - s1.start
        { s1 with won := true, wonTime := some (e / 1000, e % 1000) }
      else s1
    else s

/-- `restart_button_system` on a pressed Restart button (src/main.rs lines
311–408): despawns the win text (leaving the Playing state, with no frozen
time on display), regenerates the maze from a fresh RNG stream, resets the
player to `(1, 1)`, recomputes the goal with the inlined scan, and resets
`StartTime` to the current instant. -/
def restart (rng : Nat → List (Int × Int)) (now : Nat) (_s : Session) : Session :=
  let M := generate_maze rng
  { maze := M
    player := (1, 1)
    goal := restartLocate M
    won := false
    wonTime := none
    start := now }

/-! ### The move timer (`MoveTimer`) -/

/-- The `MoveTimer` interval `0.12` seconds, in milliseconds. -/
def MOVE_INTERVAL_MS : Nat := 120

/-- Modelled from the spec: the repeating-timer gate (`Timer::from_seconds(0.12,
TimerMode::Repeating)` with `tick(..).just_finished()`); the Bevy `Timer`
implementation is not part of this repository. Per the spec's MoveGate
contract the gate accumulates elapsed time and, when the accumulator reaches
the interval, subtracts the interval and admits exactly one step. -/
def gateTick (T : Nat) (acc : Nat) (d : Nat) : Nat × Bool :=
  let a := acc + d
  if T ≤ a then (a - T, true) else (a, false)

/-- Run the gate over a frame-delta sequence, collecting the admitted flags. -/
def runGate (T : Nat) (acc : Nat) : List Nat → Nat × List Bool
  | [] => (acc, [])
  | d :: ds =>
    let r := gateTick T acc d
    let rest := runGate T r.1 ds
    (rest.1, r.2 :: rest.2)

/-- The pressed-state of the four arrow keys in one frame. -/
structure Keys where
  up : Bool
  down : Bool
  left : Bool
  right : Bool

/-- The key-priority chain of `player_input` (lines 199–211): Up, else Down,
else Left, else Right; no key pressed means the frame does nothing. -/
def keyDir (k : Keys) : Option Dir :=
  if k.up then some Dir.Up
  else if k.down then some Dir.Down
  else if k.left then some Dir.Left
  else if k.right then some Dir.Right
  else none

/-- Session plus the move-timer accumulator. -/
structure GameState where
  session : Session
  acc : Nat

/-- One frame of `player_input`: return immediately in the Won state; tick the
timer and return unless it just finished; read the key priority chain; apply
the move. -/
def frame (gs : GameState) (k : Keys) (delta : Nat) (now : Nat) : GameState :=
  if gs.session.won then gs
  else
    let r := gateTick MOVE_INTERVAL_MS gs.acc delta
    if r.2 = false then { gs with acc := r.1 }
    else
      match keyDir k with
      | none => { gs with acc := r.1 }
      | some d => { session := apply_move gs.session d now, acc := r.1 }

/-! ### The grid as the actual `Vec<Vec<TileType>>`, for the indexing-safety
claim: grid reads are partial exactly where Rust indexing would panic. -/

/-- `maze.0[y][x]` as a fallible lookup. -/
def vecGet (g : List (List Tile)) (y x : Nat) : Option Tile :=
  match g[y]? with
  | some row => row[x]?
  | none => none

/-- The move computation of `player_input` over the real vector-of-vectors
grid: the bounds test `new_x < MAZE_WIDTH && new_y < MAZE_HEIGHT` guards the
only grid access (`maze.0[new_y][new_x]`); `none` models a panicking
out-of-range index. -/
def movePosChecked (g : List (List Tile)) (pos : Nat × Nat) (d : Dir) :
    Option (Nat × Nat) :=
  let nx := usizeOfInt ((pos.1 : Int) + (dirDelta d).1)
  let ny := usizeOfInt ((pos.2 : Int) + (dirDelta d).2)
  if nx < MAZE_WIDTH ∧ ny < MAZE_HEIGHT then
    match vecGet g ny nx with
    | some t => if t = Tile.Path then some (nx, ny) else some pos
    | none => none
  else some pos

/-! ### Derived notions used to state the invariants: 4-directional adjacency,
flood-fill reachability, cell/adjacency counts, and the carving relation. -/

/-- Two coordinates at 4-directional distance one. -/
def UnitAdj (p q : Nat × Nat) : Prop :=
  (p.1 = q.1 ∧ (p.2 = q.2 + 1 ∨ q.2 = p.2 + 1)) ∨
  (p.2 = q.2 ∧ (p.1 = q.1 + 1 ∨ q.1 = p.1 + 1))

instance (p q : Nat × Nat) : Decidable (UnitAdj p q) := by
  unfold UnitAdj; exact inferInstance

/-- Flood fill from the start coordinate `(1, 1)` over `Path` cells: the cells
reachable by a sequence of 4-directional single-cell steps that stay on `Path`
cells. -/
inductive Reach (M : Maze) : Nat × Nat → Prop where
  | start : Reach M (1, 1)
  | step {p q : Nat × Nat} : Reach M p → UnitAdj p q → M q.1 q.2 = Tile.Path → Reach M q

/-- Number of `Path` cells in the 21×21 grid. -/
def pathCount (M : Maze) : Nat :=
  (Finset.univ.filter (fun p : Fin 21 × Fin 21 => M p.1.val p.2.val = Tile.Path)).card

/-- Number of `Wall` cells in the 21×21 grid. -/
def wallCount (M : Maze) : Nat :=
  (Finset.univ.filter (fun p : Fin 21 × Fin 21 => M p.1.val p.2.val = Tile.Wall)).card

/-- Number of ordered pairs of adjacent `Path` cells: twice the number of
undirected carving edges between `Path` cells. -/
def adjCount (M : Maze) : Nat :=
  ∑ p : Fin 21 × Fin 21, ∑ q : Fin 21 × Fin 21,
    if M p.1.val p.2.val = Tile.Path ∧ M q.1.val q.2.val = Tile.Path ∧
        UnitAdj (p.1.val, p.2.val) (q.1.val, q.2.val) then 1 else 0

/-- The graph whose edges join 4-adjacent `Path` cells of `M`. -/
def pathGraph (M : Maze) : SimpleGraph (Nat × Nat) where
  Adj p q := M p.1 p.2 = Tile.Path ∧ M q.1 q.2 = Tile.Path ∧ UnitAdj p q
  symm := by
    intro p q h
    refine ⟨h.2.1, h.1, ?_⟩
    have h3 := h.2.2
    unfold UnitAdj at h3 ⊢
    omega
  loopless := by
    intro p h
    have h3 := h.2.2
    unfold UnitAdj at h3
    omega

/-- The maze-and-counter pair carried by a `GenState`. -/
def mcOf (s : GenState) : Maze × Nat := (s.maze, s.carves)

/-- `carvePaint` on the maze-and-counter pair. -/
def paint (mc : Maze × Nat) (x y : Nat) : Maze × Nat :=
  if mc.1 x y = Tile.Wall then (setCell mc.1 x y Tile.Path, mc.2 + 1)
  else (setCell mc.1 x y Tile.Path, mc.2)

/-- One successful iteration of the carving loop: from an odd/odd `Path` cell
`(x, y)`, pick a base direction whose distance-2 target is interior and `Wall`,
and paint the target then the midpoint. -/
inductive CarveStep : Maze × Nat → Maze × Nat → Prop where
  | mk (M : Maze) (c : Nat) (x y : Nat) (dx dy : Int)
      (hd : (dx, dy) ∈ baseDirs)
      (hox : x % 2 = 1) (hoy : y % 2 = 1)
      (hpath : M x y = Tile.Path)
      (hb1 : 0 < (x : Int) + dx) (hb2 : 0 < (y : Int) + dy)
      (hb3 : ((x : Int) + dx).toNat < MAZE_WIDTH - 1)
      (hb4 : ((y : Int) + dy).toNat < MAZE_HEIGHT - 1)
      (hwall : M ((x : Int) + dx).toNat ((y : Int) + dy).toNat = Tile.Wall) :
      CarveStep (M, c)
        (paint (paint (M, c) ((x : Int) + dx).toNat ((y : Int) + dy).toNat)
          ((x : Int) + Int.tdiv dx 2).toNat ((y : Int) + Int.tdiv dy 2).toNat)

/-- Any number of carving iterations. -/
def Carved : Maze × Nat → Maze × Nat → Prop := Relation.ReflTransGen CarveStep

/-- Every `Path` cell is interior. -/
def InteriorOnly (M : Maze) : Prop :=
  ∀ x y, M x y = Tile.Path → 1 ≤ x ∧ x ≤ 19 ∧ 1 ≤ y ∧ y ≤ 19

/-- A `Path` cell of odd column and even row is a carved vertical midpoint:
both its odd/odd lattice endpoints are `Path`. -/
def VertMidOk (M : Maze) : Prop :=
  ∀ x y, x % 2 = 1 → y % 2 = 0 → M x y = Tile.Path →
    M x (y - 1) = Tile.Path ∧ M x (y + 1) = Tile.Path

/-- A `Path` cell of even column and odd row is a carved horizontal midpoint. -/
def HorizMidOk (M : Maze) : Prop :=
  ∀ x y, x % 2 = 0 → y % 2 = 1 → M x y = Tile.Path →
    M (x - 1) y = Tile.Path ∧ M (x + 1) y = Tile.Path

/-- Cells with both coordinates even are never carved. -/
def NoEvenEven (M : Maze) : Prop :=
  ∀ x y, x % 2 = 0 → y % 2 = 0 → M x y ≠ Tile.Path

/-- Every `Path` cell is reachable from the start by the flood fill. -/
def ReachAll (M : Maze) : Prop := ∀ p : Nat × Nat, M p.1 p.2 = Tile.Path → Reach M p

/-- The inductive invariant of the carving pass. -/
def MazeInv (mc : Maze × Nat) : Prop :=
  InteriorOnly mc.1 ∧ VertMidOk mc.1 ∧ HorizMidOk mc.1 ∧ NoEvenEven mc.1 ∧
  ReachAll mc.1 ∧ pathCount mc.1 = 1 + mc.2 ∧ adjCount mc.1 = 2 * mc.2 ∧
  (pathGraph mc.1).IsAcyclic

/-- All four distance-2 lattice neighbours of `(x, y)` that pass the carving
bounds check are `Path`: the state of a cell once `carve` has processed it. -/
def DoneAt (M : Maze) (x y : Nat) : Prop :=
  ∀ dx dy, (dx, dy) ∈ baseDirs → 0 < (x : Int) + dx → 0 < (y : Int) + dy →
    ((x : Int) + dx).toNat < MAZE_WIDTH - 1 → ((y : Int) + dy).toNat < MAZE_HEIGHT - 1 →
    M ((x : Int) + dx).toNat ((y : Int) + dy).toNat = Tile.Path

/-! ### Concrete fixtures used by the witness theorems -/

/-- The identity shuffle: a legitimate RNG behaviour. -/
def rng0 : Nat → List (Int × Int) := fun _ => baseDirs

/-- A fully open grid, for exercising the session layer. -/
def allPath : Maze := fun _ _ => Tile.Path

/-- A session one accepted move away from the goal. -/
def sessNearGoal : Session :=
  { maze := allPath, player := (1, 1), goal := (2, 1), won := false,
    wonTime := none, start := 100 }

/-- A session already in the Won state. -/
def sessWon : Session :=
  { maze := allPath, player := (2, 1), goal := (2, 1), won := true,
    wonTime := some (3, 500), start := 100 }

/-- A session whose only open cell is the player's: every move is rejected. -/
def sessBlocked : Session :=
  { maze := fun x y => if x = 1 ∧ y = 1 then Tile.Path else Tile.Wall,
    player := (1, 1), goal := (2, 1), won := false, wonTime := none, start := 0 }

/-- A well-formed 21×21 vector-of-vectors grid. -/
def vecDemo : List (List Tile) := List.replicate 21 (List.replicate 21 Tile.Wall)

/-! ## Session-layer lemmas -/

theorem apply_move_of_won (s : Session) (d : Dir) (now : Nat) (h : s.won = true) :
    apply_move s d now = s := by
  unfold apply_move
  rw [h]
  simp

theorem apply_move_reject (s : Session) (d : Dir) (now : Nat) (hw : s.won = false)
    (h : ¬((moveTarget s d).1 < MAZE_WIDTH ∧ (moveTarget s d).2 < MAZE_HEIGHT ∧
        s.maze (moveTarget s d).1 (moveTarget s d).2 = Tile.Path)) :
    apply_move s d now = s := by
  unfold apply_move
  rw [hw]
  simp only [Bool.false_eq_true, if_false]
  rw [if_neg h]

theorem apply_move_win (s : Session) (d : Dir) (now : Nat) (hw : s.won = false)
    (h1 : (moveTarget s d).1 < MAZE_WIDTH) (h2 : (moveTarget s d).2 < MAZE_HEIGHT)
    (h3 : s.maze (moveTarget s d).1 (moveTarget s d).2 = Tile.Path)
    (hg : moveTarget s d = s.goal) :
    apply_move s d now =
      { s with player := moveTarget s d, won := true,
               wonTime := some ((now - s.start) / 1000, (now - s.start) % 1000) } := by
  unfold apply_move
  rw [hw]
  simp only [Bool.false_eq_true, if_false]
  rw [if_pos ⟨h1, h2, h3⟩, if_pos hg]

theorem apply_move_step (s : Session) (d : Dir) (now : Nat) (hw : s.won = false)
    (h1 : (moveTarget s d).1 < MAZE_WIDTH) (h2 : (moveTarget s d).2 < MAZE_HEIGHT)
    (h3 : s.maze (moveTarget s d).1 (moveTarget s d).2 = Tile.Path)
    (hg : moveTarget s d ≠ s.goal) :
    apply_move s d now = { s with player := moveTarget s d } := by
  unfold apply_move
  rw [hw]
  simp only [Bool.false_eq_true, if_false]
  rw [if_pos ⟨h1, h2, h3⟩, if_neg hg]

/-- C3: in state Playing, an accepted move onto the goal transitions the
session to Won exactly once, freezing the elapsed clock `now - start` as whole
seconds plus the millisecond remainder; and every `apply_move` performed in
state Won leaves the player position and the whole session unchanged. -/
theorem C3_win_detection :
    (∀ (s : Session) (d : Dir) (now : Nat),
        s.won = false →
        (moveTarget s d).1 < MAZE_WIDTH →
        (moveTarget s d).2 < MAZE_HEIGHT →
        s.maze (moveTarget s d).1 (moveTarget s d).2 = Tile.Path →
        moveTarget s d = s.goal →
        (apply_move s d now).won = true ∧
        (apply_move s d now).player = s.goal ∧
        (apply_move s d now).wonTime =
          some ((now - s.start) / 1000, (now - s.start) % 1000)) ∧
    (∀ (s : Session) (d : Dir) (now : Nat), s.won = true →
        apply_move s d now = s ∧ (apply_move s d now).player = s.player) := by
  constructor
  · intro s d now hw h1 h2 h3 hg
    rw [apply_move_win s d now hw h1 h2 h3 hg]
    exact ⟨rfl, hg, rfl⟩
  · intro s d now h
    exact ⟨apply_move_of_won s d now h, by rw [apply_move_of_won s d now h]⟩

/-- Witness for C3 at a concrete session: moving right onto the goal wins and
freezes `1234 - 100 = 1134` milliseconds as `1.134`; a move in the Won state
changes nothing. -/
theorem C3_win_detection_witness :
    ((apply_move sessNearGoal Dir.Right 1234).won = true ∧
     (apply_move sessNearGoal Dir.Right 1234).player = sessNearGoal.goal ∧
     (apply_move sessNearGoal Dir.Right 1234).wonTime = some (1, 134)) ∧
    apply_move sessWon Dir.Up 7777 = sessWon := by
  constructor
  · exact C3_win_detection.1 sessNearGoal Dir.Right 1234 rfl (by decide) (by decide)
      (by decide) (by decide)
  · exact (C3_win_detection.2 sessWon Dir.Up 7777 rfl).1

/-- C5: in state Playing, a move whose computed target is out of bounds or a
`Wall` tile is a silent no-op: the whole session record (player, goal, grid,
state, clock) is returned unchanged, and no error is signalled (`apply_move`
is total). -/
theorem C5_move_rejection (s : Session) (d : Dir) (now : Nat)
    (hw : s.won = false)
    (h : ¬((moveTarget s d).1 < MAZE_WIDTH ∧ (moveTarget s d).2 < MAZE_HEIGHT ∧
        s.maze (moveTarget s d).1 (moveTarget s d).2 = Tile.Path)) :
    apply_move s d now = s :=
  apply_move_reject s d now hw h

/-- Witness for C5: from `(1, 1)` with `(2, 1)` a Wall, moving right is
rejected and the whole session is unchanged; likewise moving left from column
1 toward the boundary column and then beyond. -/
theorem C5_move_rejection_witness :
    apply_move sessBlocked Dir.Right 42 = sessBlocked ∧
    apply_move sessBlocked Dir.Down 42 = sessBlocked := by
  constructor
  · exact C5_move_rejection sessBlocked Dir.Right 42 rfl (by decide)
  · exact C5_move_rejection sessBlocked Dir.Down 42 rfl (by decide)

/-! ## Goal-scan lemmas -/

theorem scanCols_eq_none (M : Maze) (y : Nat) :
    ∀ b, (∀ x, 1 ≤ x → x ≤ b → M x y ≠ Tile.Path) → scanCols M y b = none
  | 0, _ => rfl
  | b + 1, h => by
    unfold scanCols
    rw [if_neg (h (b + 1) (by omega) (Nat.le_refl _))]
    exact scanCols_eq_none M y b (fun x h1 h2 => h x h1 (by omega))

theorem scanCols_eq_some (M : Maze) (y : Nat) :
    ∀ b x, 1 ≤ x → x ≤ b → M x y = Tile.Path →
      (∀ x2, x < x2 → x2 ≤ b → M x2 y ≠ Tile.Path) →
      scanCols M y b = some (x, y)
  | 0, x, h1, h2, _, _ => absurd (Nat.le_trans h1 h2) (by omega)
  | b + 1, x, h1, h2, hP, hmax => by
    unfold scanCols
    by_cases hx : x = b + 1
    · subst hx
      rw [if_pos hP]
    · rw [if_neg (hmax (b + 1) (by omega) (Nat.le_refl _))]
      exact scanCols_eq_some M y b x h1 (by omega) hP
        (fun x2 ha hb => hmax x2 ha (by omega))

theorem scanRows_eq_none (M : Maze) :
    ∀ b, (∀ x y, 1 ≤ x → x ≤ MAZE_WIDTH - 2 → 1 ≤ y → y ≤ b → M x y ≠ Tile.Path) →
      scanRows M b = none
  | 0, _ => rfl
  | b + 1, h => by
    unfold scanRows
    rw [scanCols_eq_none M (b + 1) (MAZE_WIDTH - 2)
      (fun x h1 h2 => h x (b + 1) h1 h2 (by omega) (Nat.le_refl _))]
    exact scanRows_eq_none M b (fun x y h1 h2 h3 h4 => h x y h1 h2 h3 (by omega))

theorem scanRows_eq_some (M : Maze) :
    ∀ b x y, 1 ≤ x → x ≤ MAZE_WIDTH - 2 → 1 ≤ y → y ≤ b → M x y = Tile.Path →
      (∀ x2, x < x2 → x2 ≤ MAZE_WIDTH - 2 → M x2 y ≠ Tile.Path) →
      (∀ x2 y2, 1 ≤ x2 → x2 ≤ MAZE_WIDTH - 2 → y < y2 → y2 ≤ b → M x2 y2 ≠ Tile.Path) →
      scanRows M b = some (x, y)
  | 0, x, y, _, _, h3, h4, _, _, _ => absurd (Nat.le_trans h3 h4) (by omega)
  | b + 1, x, y, h1, h2, h3, h4, hP, hrow, habove => by
    unfold scanRows
    by_cases hy : y = b + 1
    · subst hy
      rw [scanCols_eq_some M (b + 1) (MAZE_WIDTH - 2) x h1 h2 hP hrow]
    · rw [scanCols_eq_none M (b + 1) (MAZE_WIDTH - 2)
        (fun x2 ha hb => habove x2 (b + 1) ha hb (by omega) (Nat.le_refl _))]
      exact scanRows_eq_some M b x y h1 h2 h3 (by omega) hP hrow
        (fun x2 y2 ha hb hc hd => habove x2 y2 ha hb hc (by omega))

theorem scanColsRestart_eq (M : Maze) (y : Nat) :
    ∀ b, scanColsRestart M y b = scanCols M y b
  | 0 => rfl
  | b + 1 => by
    unfold scanColsRestart scanCols
    rw [scanColsRestart_eq M y b]

theorem scanRowsRestart_eq (M : Maze) : ∀ b, scanRowsRestart M b = scanRows M b
  | 0 => rfl
  | b + 1 => by
    unfold scanRowsRestart scanRows
    rw [scanColsRestart_eq, scanRowsRestart_eq M b]

/-- The scan inlined in `restart_button_system` computes exactly what the
scan in `setup` computes. -/
theorem restartLocate_eq (M : Maze) : restartLocate M = locate_goal M := by
  unfold restartLocate locate_goal
  rw [scanRowsRestart_eq]

/-- Accepted or rejected, a move never touches the grid, the goal, or the
start instant. -/
theorem apply_move_frame_fields (s : Session) (d : Dir) (now : Nat) :
    (apply_move s d now).maze = s.maze ∧ (apply_move s d now).goal = s.goal ∧
    (apply_move s d now).start = s.start := by
  unfold apply_move
  split
  · exact ⟨rfl, rfl, rfl⟩
  · dsimp only
    split
    · split <;> exact ⟨rfl, rfl, rfl⟩
    · exact ⟨rfl, rfl, rfl⟩

/-- C6: the goal locator is a pure function of the grid; it scans rows from
`height - 2` down to `1` and, within a row, columns from `width - 2` down to
`1`, returning the first `Path` cell (the bottom-most, then right-most,
interior `Path` cell); if no interior `Path` cell exists it returns the
default `(width - 2, height - 2)`; and the copy of the scan inlined in
`restart_button_system` computes the same coordinate on every grid. -/
theorem C6_goal_locator :
    (∀ M : Maze,
        (∀ x y, 1 ≤ x → x ≤ MAZE_WIDTH - 2 → 1 ≤ y → y ≤ MAZE_HEIGHT - 2 →
          M x y ≠ Tile.Path) →
        locate_goal M = (MAZE_WIDTH - 2, MAZE_HEIGHT - 2)) ∧
    (∀ (M : Maze) (x y : Nat),
        1 ≤ x → x ≤ MAZE_WIDTH - 2 → 1 ≤ y → y ≤ MAZE_HEIGHT - 2 →
        M x y = Tile.Path →
        (∀ x2 y2, 1 ≤ x2 → x2 ≤ MAZE_WIDTH - 2 → 1 ≤ y2 → y2 ≤ MAZE_HEIGHT - 2 →
          M x2 y2 = Tile.Path → y2 < y ∨ (y2 = y ∧ x2 ≤ x)) →
        locate_goal M = (x, y)) ∧
    (∀ M : Maze, restartLocate M = locate_goal M) := by
  refine ⟨?_, ?_, restartLocate_eq⟩
  · intro M h
    unfold locate_goal
    rw [scanRows_eq_none M (MAZE_HEIGHT - 2) (fun x y h1 h2 h3 h4 => h x y h1 h2 h3 h4)]
    rfl
  · intro M x y h1 h2 h3 h4 hP hmax
    unfold locate_goal
    rw [scanRows_eq_some M (MAZE_HEIGHT - 2) x y h1 h2 h3 h4 hP
      (fun x2 ha hb hP2 => by
        rcases hmax x2 y (by omega) hb h3 h4 hP2 with h | h <;> omega)
      (fun x2 y2 ha hb hc hd hP2 => by
        rcases hmax x2 y2 ha hb (by omega) hd hP2 with h | h <;> omega)]
    rfl

/-- Witness for C6: the all-Wall grid falls back to the default `(19, 19)`;
on the initial one-cell grid the scan finds `(1, 1)`; the restart copy of the
scan agrees there. -/
theorem C6_goal_locator_witness :
    locate_goal (fun _ _ => Tile.Wall) = (19, 19) ∧
    locate_goal initMaze = (1, 1) ∧
    restartLocate initMaze = locate_goal initMaze := by
  refine ⟨C6_goal_locator.1 _ (fun _ _ _ _ _ _ => by decide),
    C6_goal_locator.2.1 initMaze 1 1 (by decide) (by decide) (by decide) (by decide)
      (by decide) ?_, C6_goal_locator.2.2 initMaze⟩
  intro x2 y2 _ _ _ _ hP2
  by_cases hc : x2 = 1 ∧ y2 = 1
  · omega
  · simp only [initMaze, setCell, if_neg hc] at hP2
    cases hP2

/-- C4: from any session state, restart regenerates the grid from a fresh
random stream, recomputes the goal with the same scan applied to the new grid,
resets the player to `(1, 1)`, resets the clock to the current instant, clears
the frozen time, and leaves the session Playing; moves never change the reset
clock, so a subsequent winning move from any Playing state carrying the reset
clock freezes its elapsed time measured from the restart instant. -/
theorem C4_restart (rng : Nat → List (Int × Int)) (now : Nat) (s : Session) :
    (restart rng now s).won = false ∧
    (restart rng now s).player = (1, 1) ∧
    (restart rng now s).maze = generate_maze rng ∧
    (restart rng now s).goal = locate_goal (generate_maze rng) ∧
    (restart rng now s).start = now ∧
    (restart rng now s).wonTime = none ∧
    (∀ (d : Dir) (now2 : Nat), (apply_move (restart rng now s) d now2).start = now) ∧
    (∀ (s2 : Session) (d : Dir) (now2 : Nat),
      s2.start = now → s2.won = false →
      (moveTarget s2 d).1 < MAZE_WIDTH → (moveTarget s2 d).2 < MAZE_HEIGHT →
      s2.maze (moveTarget s2 d).1 (moveTarget s2 d).2 = Tile.Path →
      moveTarget s2 d = s2.goal →
      (apply_move s2 d now2).wonTime =
        some ((now2 - now) / 1000, (now2 - now) % 1000)) := by
  refine ⟨rfl, rfl, rfl, restartLocate_eq _, rfl, rfl, ?_, ?_⟩
  · intro d now2
    exact (apply_move_frame_fields _ d now2).2.2
  · intro s2 d now2 hstart hw h1 h2 h3 hg
    rw [apply_move_win s2 d now2 hw h1 h2 h3 hg, ← hstart]

/-- Witness for C4 at the identity shuffle, restart instant 500, from a Won
session: the reset facts hold, and a later winning move at instant 1234
freezes `0.734` seconds, measured from 500, not from the old session's start. -/
theorem C4_restart_witness :
    (restart rng0 500 sessWon).won = false ∧
    (restart rng0 500 sessWon).player = (1, 1) ∧
    (restart rng0 500 sessWon).goal = locate_goal (generate_maze rng0) ∧
    (restart rng0 500 sessWon).start = 500 ∧
    (apply_move (restart rng0 500 sessWon) Dir.Up 999).start = 500 ∧
    (apply_move { sessNearGoal with start := 500 } Dir.Right 1234).wonTime =
      some (0, 734) := by
  have h := C4_restart rng0 500 sessWon
  refine ⟨h.1, h.2.1, h.2.2.2.1, h.2.2.2.2.1, h.2.2.2.2.2.2.1 Dir.Up 999, ?_⟩
  exact h.2.2.2.2.2.2.2 { sessNearGoal with start := 500 } Dir.Right 1234 rfl rfl
    (by decide) (by decide) (by decide) (by decide)

/-- C9: the move handler bounds-checks the computed coordinate before the only
grid access it performs, so on a well-formed 21×21 grid no lookup is out of
range for any player position (column 0 and row 0 included: the wrapped
`as usize` coordinate fails the bounds test) and the handler always returns a
result rather than panicking. -/
theorem C9_bounds_checked (g : List (List Tile)) (hg : g.length = MAZE_HEIGHT)
    (hrow : ∀ row ∈ g, row.length = MAZE_WIDTH) (pos : Nat × Nat) (d : Dir) :
    ∃ r, movePosChecked g pos d = some r := by
  unfold movePosChecked
  set nx := usizeOfInt ((pos.1 : Int) + (dirDelta d).1) with hnx
  set ny := usizeOfInt ((pos.2 : Int) + (dirDelta d).2) with hny
  dsimp only
  by_cases hb : nx < MAZE_WIDTH ∧ ny < MAZE_HEIGHT
  · have hy : ny < g.length := by
      rw [hg]; exact hb.2
    have hrowlen : g[ny].length = MAZE_WIDTH := hrow _ (List.getElem_mem hy)
    have hx : nx < g[ny].length := by
      rw [hrowlen]; exact hb.1
    have hget : vecGet g ny nx = some (g[ny][nx]) := by
      unfold vecGet
      rw [List.getElem?_eq_getElem hy]
      dsimp only
      rw [List.getElem?_eq_getElem hx]
    rw [if_pos hb, hget]
    dsimp only
    split <;> exact ⟨_, rfl⟩
  · rw [if_neg hb]
    exact ⟨pos, rfl⟩

/-- Witness for C9: on a well-formed grid, moving left from column 0 (the
wrapped index is `2^64 - 1`) and moving down from row 0 both stay safe. -/
theorem C9_bounds_checked_witness :
    (∃ r, movePosChecked vecDemo (0, 0) Dir.Left = some r) ∧
    (∃ r, movePosChecked vecDemo (0, 0) Dir.Down = some r) := by
  constructor
  · exact C9_bounds_checked vecDemo (by decide)
      (fun row hr => by rw [List.eq_of_mem_replicate hr]; decide) (0, 0) Dir.Left
  · exact C9_bounds_checked vecDemo (by decide)
      (fun row hr => by rw [List.eq_of_mem_replicate hr]; decide) (0, 0) Dir.Down

/-! ## Move-gate lemmas -/

theorem runGate_spec (T : Nat) :
    ∀ (ds : List Nat) (acc j : Nat), j < ds.length →
      (∀ i, i < j → acc + (ds.take (i + 1)).sum < T) →
      T ≤ acc + (ds.take (j + 1)).sum →
      (∀ i, i < j → (runGate T acc ds).2[i]? = some false) ∧
      (runGate T acc ds).2[j]? = some true ∧
      (runGate T acc (ds.take (j + 1))).1 = acc + (ds.take (j + 1)).sum - T
  | [], _, j, hj, _, _ => absurd hj (by simp)
  | d :: ds', acc, 0, _, _, hge => by
    have hfire : T ≤ acc + d := by
      simpa using hge
    refine ⟨fun i hi => absurd hi (Nat.not_lt_zero i), ?_, ?_⟩
    · simp [runGate, gateTick, hfire]
    · simp [runGate, gateTick, hfire]
  | d :: ds', acc, j + 1, hj, hlt, hge => by
    have h0 : acc + d < T := by
      have := hlt 0 (by omega)
      simpa using this
    have hnot : ¬ T ≤ acc + d := by omega
    have IH := runGate_spec T ds' (acc + d) j (by simpa using hj)
      (fun i hi => by
        have := hlt (i + 1) (by omega)
        simp only [List.take_succ_cons, List.sum_cons] at this
        omega)
      (by
        simp only [List.take_succ_cons, List.sum_cons] at hge
        omega)
    refine ⟨?_, ?_, ?_⟩
    · intro i hi
      match i with
      | 0 => simp [runGate, gateTick, hnot]
      | i + 1 =>
        have := IH.1 i (by omega)
        simpa [runGate, gateTick, hnot] using this
    · have := IH.2.1
      simpa [runGate, gateTick, hnot] using this
    · have h3 := IH.2.2
      simp only [List.take_succ_cons, List.sum_cons, runGate, gateTick]
      rw [if_neg hnot]
      dsimp only
      omega

/-- C7: with interval `T` and per-frame deltas each smaller than `T`, the gate
returns false every frame until the cumulative elapsed time reaches `T`, at
which point it returns true exactly once and the accumulator drops by `T`;
and a frame on which the gate does not fire never calls `apply_move` (the
session is untouched). -/
theorem C7_rate_limiting :
    (∀ (T : Nat) (ds : List Nat) (j : Nat),
        0 < T → (∀ d ∈ ds, d < T) →
        j < ds.length →
        (∀ i, i < j → (ds.take (i + 1)).sum < T) →
        T ≤ (ds.take (j + 1)).sum →
        (∀ i, i < j → (runGate T 0 ds).2[i]? = some false) ∧
        (runGate T 0 ds).2[j]? = some true ∧
        (runGate T 0 (ds.take (j + 1))).1 = (ds.take (j + 1)).sum - T) ∧
    (∀ (gs : GameState) (k : Keys) (delta now : Nat),
        (gateTick MOVE_INTERVAL_MS gs.acc delta).2 = false →
        (frame gs k delta now).session = gs.session) := by
  constructor
  · intro T ds j _ _ hj hlt hge
    have h := runGate_spec T ds 0 j hj
      (fun i hi => by have := hlt i hi; omega)
      (by omega)
    exact ⟨h.1, h.2.1, by have := h.2.2; omega⟩
  · intro gs k delta now hmiss
    unfold frame
    split
    · rfl
    · dsimp only
      rw [hmiss]
      simp

/-- Witness for C7: interval 120 with deltas `50, 50, 50`: the first two ticks
are rejected, the third fires and the accumulator keeps `150 - 120 = 30`; and
a non-firing frame leaves the session untouched. -/
theorem C7_rate_limiting_witness :
    ((runGate 120 0 [50, 50, 50]).2[0]? = some false ∧
     (runGate 120 0 [50, 50, 50]).2[2]? = some true ∧
     (runGate 120 0 ([50, 50, 50].take 3)).1 = 30) ∧
    (frame { session := sessNearGoal, acc := 0 } ⟨true, false, false, false⟩ 50 77).session =
      sessNearGoal := by
  have h := C7_rate_limiting.1 120 [50, 50, 50] 2 (by decide) (by decide) (by decide)
    (fun i hi => by interval_cases i <;> decide) (by decide)
  exact ⟨⟨h.1 0 (by decide), h.2.1, h.2.2⟩,
    C7_rate_limiting.2 { session := sessNearGoal, acc := 0 } ⟨true, false, false, false⟩
      50 77 (by decide)⟩

/-! ## Basic cell lemmas -/

theorem tile_cases (t : Tile) : t = Tile.Wall ∨ t = Tile.Path := by
  cases t
  · exact Or.inl rfl
  · exact Or.inr rfl

theorem setCell_self (M : Maze) (x y : Nat) (t : Tile) : setCell M x y t x y = t := by
  simp [setCell]

theorem setCell_of_ne (M : Maze) (x y : Nat) (t : Tile) {i j : Nat}
    (h : ¬(i = x ∧ j = y)) : setCell M x y t i j = M i j := by
  simp [setCell, h]

theorem setCell_path_mono {M : Maze} (x y : Nat) {i j : Nat}
    (h : M i j = Tile.Path) : setCell M x y Tile.Path i j = Tile.Path := by
  unfold setCell
  split
  · rfl
  · exact h

theorem paint_fst (mc : Maze × Nat) (x y : Nat) :
    (paint mc x y).1 = setCell mc.1 x y Tile.Path := by
  unfold paint
  split <;> rfl

theorem paint_snd (mc : Maze × Nat) (x y : Nat) :
    (paint mc x y).2 = if mc.1 x y = Tile.Wall then mc.2 + 1 else mc.2 := by
  unfold paint
  split <;> simp_all

theorem carvePaint_mcOf (s : GenState) (x y : Nat) :
    mcOf (carvePaint s x y) = paint (mcOf s) x y := by
  unfold carvePaint paint mcOf
  split <;> rfl

theorem carvePaint_maze (s : GenState) (x y : Nat) :
    (carvePaint s x y).maze = setCell s.maze x y Tile.Path := by
  unfold carvePaint
  split <;> rfl

theorem initMaze_path_iff (x y : Nat) : initMaze x y = Tile.Path ↔ (x = 1 ∧ y = 1) := by
  unfold initMaze setCell
  split
  · simp_all
  · constructor
    · intro h
      cases h
    · intro h
      simp_all

/-! ## Equation lemmas for the carving recursion -/

theorem carveDirs_nil (rec : Nat → Nat → GenState → GenState) (x y : Nat) (s : GenState) :
    carveDirs rec x y [] s = s := rfl

theorem carveDirs_cons (rec : Nat → Nat → GenState → GenState) (x y : Nat)
    (dx dy : Int) (rest : List (Int × Int)) (s : GenState) :
    carveDirs rec x y ((dx, dy) :: rest) s =
      if 0 < (x : Int) + dx ∧ 0 < (y : Int) + dy ∧
          ((x : Int) + dx).toNat < MAZE_WIDTH - 1 ∧
          ((y : Int) + dy).toNat < MAZE_HEIGHT - 1 then
        if s.maze ((x : Int) + dx).toNat ((y : Int) + dy).toNat = Tile.Wall then
          carveDirs rec x y rest
            (rec ((x : Int) + dx).toNat ((y : Int) + dy).toNat
              (carvePaint (carvePaint s ((x : Int) + dx).toNat ((y : Int) + dy).toNat)
                ((x : Int) + Int.tdiv dx 2).toNat ((y : Int) + Int.tdiv dy 2).toNat))
        else carveDirs rec x y rest s
      else carveDirs rec x y rest s := rfl

theorem carveF_zero (rng : Nat → List (Int × Int)) (x y : Nat) (s : GenState) :
    carveF rng 0 x y s = s := rfl

theorem carveF_succ (rng : Nat → List (Int × Int)) (f x y : Nat) (s : GenState) :
    carveF rng (f + 1) x y s =
      carveDirs (carveF rng f) x y (rng s.k) { s with k := s.k + 1 } := rfl

/-! ## Monotonicity of carving -/

theorem carveStep_mono {a b : Maze × Nat} (st : CarveStep a b) {i j : Nat}
    (h : a.1 i j = Tile.Path) : b.1 i j = Tile.Path := by
  cases st with
  | mk M c x y dx dy hd hox hoy hpath hb1 hb2 hb3 hb4 hwall =>
    rw [paint_fst, paint_fst]
    exact setCell_path_mono _ _ (setCell_path_mono _ _ h)

theorem carved_mono {a b : Maze × Nat} (h : Carved a b) {i j : Nat}
    (hp : a.1 i j = Tile.Path) : b.1 i j = Tile.Path := by
  induction h with
  | refl => exact hp
  | tail _ hbc IH => exact carveStep_mono hbc IH

/-! ## Wall counting, for fuel bounds -/

theorem wallCount_setCell_le (M : Maze) (x y : Nat) :
    wallCount (setCell M x y Tile.Path) ≤ wallCount M := by
  apply Finset.card_le_card
  intro p hp
  rw [Finset.mem_filter] at hp ⊢
  refine ⟨Finset.mem_univ _, ?_⟩
  by_cases hc : p.1.val = x ∧ p.2.val = y
  · rw [setCell, if_pos hc] at hp
    cases hp.2
  · rw [setCell_of_ne _ _ _ _ hc] at hp
    exact hp.2

theorem wallCount_setCell_lt (M : Maze) {x y : Nat} (hx : x < 21) (hy : y < 21)
    (hW : M x y = Tile.Wall) :
    wallCount (setCell M x y Tile.Path) < wallCount M := by
  have hmem : (⟨⟨x, hx⟩, ⟨y, hy⟩⟩ : Fin 21 × Fin 21) ∈
      Finset.univ.filter (fun p : Fin 21 × Fin 21 => M p.1.val p.2.val = Tile.Wall) := by
    rw [Finset.mem_filter]
    exact ⟨Finset.mem_univ _, hW⟩
  have hsub : Finset.univ.filter
      (fun p : Fin 21 × Fin 21 => setCell M x y Tile.Path p.1.val p.2.val = Tile.Wall) ⊆
      (Finset.univ.filter (fun p : Fin 21 × Fin 21 => M p.1.val p.2.val = Tile.Wall)).erase
        ⟨⟨x, hx⟩, ⟨y, hy⟩⟩ := by
    intro p hp
    rw [Finset.mem_filter] at hp
    rw [Finset.mem_erase]
    by_cases hc : p.1.val = x ∧ p.2.val = y
    · rw [setCell, if_pos hc] at hp
      cases hp.2
    · refine ⟨?_, ?_⟩
      · intro he
        apply hc
        rw [he]
        exact ⟨rfl, rfl⟩
      · rw [Finset.mem_filter]
        rw [setCell_of_ne _ _ _ _ hc] at hp
        exact ⟨Finset.mem_univ _, hp.2⟩
  have h1 := Finset.card_le_card hsub
  have h2 := Finset.card_erase_of_mem hmem
  have h3 : 0 < (Finset.univ.filter
      (fun p : Fin 21 × Fin 21 => M p.1.val p.2.val = Tile.Wall)).card :=
    Finset.card_pos.mpr ⟨_, hmem⟩
  unfold wallCount
  omega

theorem carveStep_wallCount {a b : Maze × Nat} (st : CarveStep a b) :
    wallCount b.1 < wallCount a.1 := by
  cases st with
  | mk M c x y dx dy hd hox hoy hpath hb1 hb2 hb3 hb4 hwall =>
    rw [paint_fst, paint_fst]
    have hx : ((x : Int) + dx).toNat < 21 := by
      have h20 : ((x : Int) + dx).toNat < 20 := hb3
      omega
    have hy : ((y : Int) + dy).toNat < 21 := by
      have h20 : ((y : Int) + dy).toNat < 20 := hb4
      omega
    calc wallCount (setCell (setCell M ((x : Int) + dx).toNat ((y : Int) + dy).toNat
            Tile.Path) ((x : Int) + Int.tdiv dx 2).toNat ((y : Int) + Int.tdiv dy 2).toNat
            Tile.Path)
        ≤ wallCount (setCell M ((x : Int) + dx).toNat ((y : Int) + dy).toNat Tile.Path) :=
          wallCount_setCell_le _ _ _
      _ < wallCount M := wallCount_setCell_lt M hx hy hwall

theorem carved_wallCount {a b : Maze × Nat} (h : Carved a b) :
    wallCount b.1 ≤ wallCount a.1 := by
  induction h with
  | refl => exact Nat.le_refl _
  | tail _ hbc IH => exact Nat.le_trans (Nat.le_of_lt (carveStep_wallCount hbc)) IH

/-! ## Geometry of unit adjacency and parity -/

theorem unitAdj_symm (a b : Nat × Nat) : UnitAdj a b ↔ UnitAdj b a := by
  unfold UnitAdj
  omega

theorem unitAdj_irrefl (a : Nat × Nat) : ¬ UnitAdj a a := by
  unfold UnitAdj
  omega

theorem baseDirs_cases {dx dy : Int} (h : (dx, dy) ∈ baseDirs) :
    (dx = 2 ∧ dy = 0) ∨ (dx = -2 ∧ dy = 0) ∨ (dx = 0 ∧ dy = 2) ∨ (dx = 0 ∧ dy = -2) := by
  simp only [baseDirs, List.mem_cons, List.not_mem_nil, or_false, Prod.mk.injEq] at h
  exact h

/-- A `Path` cell adjacent to an odd/odd cell `n` is a carved midpoint whose
endpoints include `n`, so `n` itself is `Path`. -/
theorem path_neighbor_oddodd {M : Maze} (hV : VertMidOk M) (hH : HorizMidOk M)
    {n q : Nat × Nat} (hn1 : n.1 % 2 = 1) (hn2 : n.2 % 2 = 1)
    (hadj : UnitAdj n q) (hq : M q.1 q.2 = Tile.Path) : M n.1 n.2 = Tile.Path := by
  unfold UnitAdj at hadj
  rcases hadj with ⟨h1, h2 | h2⟩ | ⟨h1, h2 | h2⟩
  · -- q directly below n : q = (n.1, n.2 - 1), a vertical midpoint
    have hq2 := (hV q.1 q.2 (by omega) (by omega) hq).2
    rw [show n.1 = q.1 from by omega, show n.2 = q.2 + 1 from by omega]
    exact hq2
  · -- q directly above n : q = (n.1, n.2 + 1), a vertical midpoint
    have hq2 := (hV q.1 q.2 (by omega) (by omega) hq).1
    rw [show n.1 = q.1 from by omega, show n.2 = q.2 - 1 from by omega]
    exact hq2
  · -- q directly left of n, a horizontal midpoint
    have hq2 := (hH q.1 q.2 (by omega) (by omega) hq).2
    rw [show n.1 = q.1 + 1 from by omega, show n.2 = q.2 from by omega]
    exact hq2
  · -- q directly right of n, a horizontal midpoint
    have hq2 := (hH q.1 q.2 (by omega) (by omega) hq).1
    rw [show n.1 = q.1 - 1 from by omega, show n.2 = q.2 from by omega]
    exact hq2

/-- The `Path` neighbours of a horizontal midpoint lie on its axis. -/
theorem mid_neighbor_horiz {M : Maze} (hE : NoEvenEven M) {m q : Nat × Nat}
    (h1 : m.1 % 2 = 0) (h2 : m.2 % 2 = 1) (hadj : UnitAdj m q)
    (hq : M q.1 q.2 = Tile.Path) : q.2 = m.2 ∧ (q.1 = m.1 + 1 ∨ q.1 + 1 = m.1) := by
  unfold UnitAdj at hadj
  rcases hadj with ⟨ha, hb | hb⟩ | ⟨ha, hb | hb⟩
  · exact absurd hq (hE q.1 q.2 (by omega) (by omega))
  · exact absurd hq (hE q.1 q.2 (by omega) (by omega))
  · omega
  · omega

/-- The `Path` neighbours of a vertical midpoint lie on its axis. -/
theorem mid_neighbor_vert {M : Maze} (hE : NoEvenEven M) {m q : Nat × Nat}
    (h1 : m.1 % 2 = 1) (h2 : m.2 % 2 = 0) (hadj : UnitAdj m q)
    (hq : M q.1 q.2 = Tile.Path) : q.1 = m.1 ∧ (q.2 = m.2 + 1 ∨ q.2 + 1 = m.2) := by
  unfold UnitAdj at hadj
  rcases hadj with ⟨ha, hb | hb⟩ | ⟨ha, hb | hb⟩
  · omega
  · omega
  · exact absurd hq (hE q.1 q.2 (by omega) (by omega))
  · exact absurd hq (hE q.1 q.2 (by omega) (by omega))

/-! ## Counting under a single cell paint -/

theorem pathCount_setCell (M : Maze) {x y : Nat} (hx : x < 21) (hy : y < 21)
    (h : M x y ≠ Tile.Path) :
    pathCount (setCell M x y Tile.Path) = pathCount M + 1 := by
  unfold pathCount
  have hset : Finset.univ.filter
      (fun p : Fin 21 × Fin 21 => setCell M x y Tile.Path p.1.val p.2.val = Tile.Path) =
      insert (⟨⟨x, hx⟩, ⟨y, hy⟩⟩ : Fin 21 × Fin 21)
        (Finset.univ.filter (fun p : Fin 21 × Fin 21 => M p.1.val p.2.val = Tile.Path)) := by
    ext p
    simp only [Finset.mem_filter, Finset.mem_insert, Finset.mem_univ, true_and]
    constructor
    · intro hp
      by_cases hc : p.1.val = x ∧ p.2.val = y
      · left
        exact Prod.ext (Fin.ext hc.1) (Fin.ext hc.2)
      · right
        rwa [setCell_of_ne _ _ _ _ hc] at hp
    · intro hp
      rcases hp with rfl | hp
      · exact setCell_self M x y _
      · exact setCell_path_mono _ _ hp
  rw [hset, Finset.card_insert_of_not_mem]
  intro hmem
  rw [Finset.mem_filter] at hmem
  exact h hmem.2

theorem adjCount_setCell (M : Maze) {x y : Nat} (hx : x < 21) (hy : y < 21)
    (h : M x y ≠ Tile.Path) :
    adjCount (setCell M x y Tile.Path) =
      adjCount M + 2 * (Finset.univ.filter (fun q : Fin 21 × Fin 21 =>
        M q.1.val q.2.val = Tile.Path ∧ UnitAdj (x, y) (q.1.val, q.2.val))).card := by
  have hsc : setCell M x y Tile.Path x y = Tile.Path := setCell_self M x y _
  have hpoint : ∀ p q : Fin 21 × Fin 21,
      (if setCell M x y Tile.Path p.1.val p.2.val = Tile.Path ∧
          setCell M x y Tile.Path q.1.val q.2.val = Tile.Path ∧
          UnitAdj (p.1.val, p.2.val) (q.1.val, q.2.val) then 1 else 0) =
      (if M p.1.val p.2.val = Tile.Path ∧ M q.1.val q.2.val = Tile.Path ∧
          UnitAdj (p.1.val, p.2.val) (q.1.val, q.2.val) then 1 else 0) +
      ((if (p.1.val = x ∧ p.2.val = y) ∧ M q.1.val q.2.val = Tile.Path ∧
          UnitAdj (x, y) (q.1.val, q.2.val) then 1 else 0) +
       (if (q.1.val = x ∧ q.2.val = y) ∧ M p.1.val p.2.val = Tile.Path ∧
          UnitAdj (p.1.val, p.2.val) (x, y) then 1 else 0)) := by
    intro p q
    by_cases hp : p.1.val = x ∧ p.2.val = y
    · by_cases hq : q.1.val = x ∧ q.2.val = y
      · rw [hp.1, hp.2, hq.1, hq.2, hsc]
        simp only [h, unitAdj_irrefl (((x : Nat), (y : Nat)) : Nat × Nat), and_false,
          false_and, if_false, add_zero, eq_self_iff_true, true_and, and_true]
      · rw [hp.1, hp.2, setCell_of_ne _ _ _ _ hq, hsc]
        simp only [h, hq, eq_self_iff_true, true_and, and_true, false_and, and_false,
          if_false, zero_add, add_zero]
    · by_cases hq : q.1.val = x ∧ q.2.val = y
      · rw [hq.1, hq.2, setCell_of_ne _ _ _ _ hp, hsc]
        simp only [h, hp, eq_self_iff_true, true_and, and_true, false_and, and_false,
          if_false, zero_add, add_zero]
      · rw [setCell_of_ne _ _ _ _ hp, setCell_of_ne _ _ _ _ hq]
        simp only [hp, hq, false_and, if_false, add_zero, zero_add]
  unfold adjCount
  calc (∑ p : Fin 21 × Fin 21, ∑ q : Fin 21 × Fin 21,
        if setCell M x y Tile.Path p.1.val p.2.val = Tile.Path ∧
            setCell M x y Tile.Path q.1.val q.2.val = Tile.Path ∧
            UnitAdj (p.1.val, p.2.val) (q.1.val, q.2.val) then 1 else 0)
      = (∑ p : Fin 21 × Fin 21, ∑ q : Fin 21 × Fin 21,
          ((if M p.1.val p.2.val = Tile.Path ∧ M q.1.val q.2.val = Tile.Path ∧
              UnitAdj (p.1.val, p.2.val) (q.1.val, q.2.val) then 1 else 0) +
           ((if (p.1.val = x ∧ p.2.val = y) ∧ M q.1.val q.2.val = Tile.Path ∧
              UnitAdj (x, y) (q.1.val, q.2.val) then 1 else 0) +
            (if (q.1.val = x ∧ q.2.val = y) ∧ M p.1.val p.2.val = Tile.Path ∧
              UnitAdj (p.1.val, p.2.val) (x, y) then 1 else 0)))) := by
        refine Finset.sum_congr rfl (fun p _ => Finset.sum_congr rfl (fun q _ => ?_))
        exact hpoint p q
    _ = (∑ p : Fin 21 × Fin 21, ∑ q : Fin 21 × Fin 21,
          if M p.1.val p.2.val = Tile.Path ∧ M q.1.val q.2.val = Tile.Path ∧
              UnitAdj (p.1.val, p.2.val) (q.1.val, q.2.val) then 1 else 0) +
        ((∑ p : Fin 21 × Fin 21, ∑ q : Fin 21 × Fin 21,
          if (p.1.val = x ∧ p.2.val = y) ∧ M q.1.val q.2.val = Tile.Path ∧
              UnitAdj (x, y) (q.1.val, q.2.val) then 1 else 0) +
         (∑ p : Fin 21 × Fin 21, ∑ q : Fin 21 × Fin 21,
          if (q.1.val = x ∧ q.2.val = y) ∧ M p.1.val p.2.val = Tile.Path ∧
              UnitAdj (p.1.val, p.2.val) (x, y) then 1 else 0)) := by
        rw [← Finset.sum_add_distrib, ← Finset.sum_add_distrib]
        refine Finset.sum_congr rfl (fun p _ => ?_)
        rw [← Finset.sum_add_distrib, ← Finset.sum_add_distrib]
    _ = adjCount M + 2 * (Finset.univ.filter (fun q : Fin 21 × Fin 21 =>
          M q.1.val q.2.val = Tile.Path ∧ UnitAdj (x, y) (q.1.val, q.2.val))).card := by
        have hA : (∑ p : Fin 21 × Fin 21, ∑ q : Fin 21 × Fin 21,
            if (p.1.val = x ∧ p.2.val = y) ∧ M q.1.val q.2.val = Tile.Path ∧
                UnitAdj (x, y) (q.1.val, q.2.val) then 1 else 0) =
            (Finset.univ.filter (fun q : Fin 21 × Fin 21 =>
              M q.1.val q.2.val = Tile.Path ∧ UnitAdj (x, y) (q.1.val, q.2.val))).card := by
          rw [Finset.card_filter]
          rw [Finset.sum_comm]
          refine Finset.sum_congr rfl (fun q _ => ?_)
          rw [Finset.sum_eq_single (⟨⟨x, hx⟩, ⟨y, hy⟩⟩ : Fin 21 × Fin 21)]
          · by_cases hc : M q.1.val q.2.val = Tile.Path ∧ UnitAdj (x, y) (q.1.val, q.2.val)
            · rw [if_pos ⟨⟨rfl, rfl⟩, hc.1, hc.2⟩, if_pos hc]
            · rw [if_neg (fun hcc => hc ⟨hcc.2.1, hcc.2.2⟩), if_neg hc]
          · intro b _ hb
            refine if_neg (fun hc => hb ?_)
            exact Prod.ext (Fin.ext hc.1.1) (Fin.ext hc.1.2)
          · intro hmem
            exact absurd (Finset.mem_univ _) hmem
        have hB : (∑ p : Fin 21 × Fin 21, ∑ q : Fin 21 × Fin 21,
            if (q.1.val = x ∧ q.2.val = y) ∧ M p.1.val p.2.val = Tile.Path ∧
                UnitAdj (p.1.val, p.2.val) (x, y) then 1 else 0) =
            (Finset.univ.filter (fun q : Fin 21 × Fin 21 =>
              M q.1.val q.2.val = Tile.Path ∧ UnitAdj (x, y) (q.1.val, q.2.val))).card := by
          have hpoint2 : ∀ p : Fin 21 × Fin 21,
              (∑ q : Fin 21 × Fin 21,
                if (q.1.val = x ∧ q.2.val = y) ∧ M p.1.val p.2.val = Tile.Path ∧
                  UnitAdj (p.1.val, p.2.val) (x, y) then 1 else 0) =
              (if M p.1.val p.2.val = Tile.Path ∧
                  UnitAdj (x, y) (p.1.val, p.2.val) then 1 else 0) := by
            intro p
            rw [Finset.sum_eq_single (⟨⟨x, hx⟩, ⟨y, hy⟩⟩ : Fin 21 × Fin 21)]
            · by_cases hc : M p.1.val p.2.val = Tile.Path ∧ UnitAdj (x, y) (p.1.val, p.2.val)
              · rw [if_pos ⟨⟨rfl, rfl⟩, hc.1, (unitAdj_symm _ _).mp hc.2⟩, if_pos hc]
              · rw [if_neg (fun hcc => hc ⟨hcc.2.1, (unitAdj_symm _ _).mp hcc.2.2⟩),
                  if_neg hc]
            · intro b _ hb
              refine if_neg (fun hc => hb ?_)
              exact Prod.ext (Fin.ext hc.1.1) (Fin.ext hc.1.2)
            · intro hmem
              exact absurd (Finset.mem_univ _) hmem
          rw [Finset.sum_congr rfl (fun p _ => hpoint2 p)]
          rw [Finset.card_filter]
        rw [hA, hB]
        unfold adjCount
        omega

/-! ## Acyclicity is preserved when a degree-one vertex `n` and its degree-two
midpoint `m` are attached to an existing vertex `p`. -/

theorem isAcyclic_extend {G G2 : SimpleGraph (Nat × Nat)} {p n m : Nat × Nat}
    (hpm : p ≠ m) (hnm : n ≠ m)
    (hn : ∀ q, G2.Adj n q → q = m)
    (hm : ∀ q, G2.Adj m q → q = p ∨ q = n)
    (hold : ∀ a b, a ≠ n → a ≠ m → b ≠ n → b ≠ m → G2.Adj a b → G.Adj a b)
    (hG : G.IsAcyclic) : G2.IsAcyclic := by
  have hNoN : ∀ c : G2.Walk n n, ¬ c.IsCycle := by
    intro c hc
    obtain ⟨x, hadj, q, rfl⟩ := SimpleGraph.Walk.not_nil_iff.mp hc.not_nil
    have hx := hn x hadj
    subst x
    obtain ⟨y, hadj2, q2, hq2⟩ := SimpleGraph.Walk.not_nil_iff.mp
      (show ¬ q.reverse.Nil from fun hh => hnm hh.eq)
    have hy := hn y hadj2
    subst y
    have hq2path : q2.IsPath := by
      have hrev := ((SimpleGraph.Walk.cons_isCycle_iff q hadj).mp hc).1.reverse
      rw [hq2] at hrev
      exact hrev.of_cons
    have hq2nil : q2 = SimpleGraph.Walk.nil := (SimpleGraph.Walk.isPath_iff_eq_nil q2).mp hq2path
    have hlen : q.length = 1 := by
      have hrl : q.reverse.length = 1 := by
        rw [hq2, hq2nil]
        rfl
      rwa [SimpleGraph.Walk.length_reverse] at hrl
    have h3 := hc.three_le_length
    rw [SimpleGraph.Walk.length_cons, hlen] at h3
    omega
  intro v c hc
  by_cases hvn : n ∈ c.support
  · exact hNoN (c.rotate hvn) (hc.rotate hvn)
  by_cases hvm : m ∈ c.support
  · have hc2 := hc.rotate hvm
    have hnin2 : n ∉ (c.rotate hvm).support := by
      intro hmem
      rw [SimpleGraph.Walk.support_eq_cons] at hmem
      rcases List.mem_cons.mp hmem with h1 | h1
      · exact hnm h1
      · apply hvn
        have h2 := (SimpleGraph.Walk.support_rotate c hvm).mem_iff.mp h1
        rw [SimpleGraph.Walk.support_eq_cons c]
        exact List.mem_cons_of_mem _ h2
    obtain ⟨x, hadj, q, hq⟩ := SimpleGraph.Walk.not_nil_iff.mp hc2.not_nil
    rw [hq] at hc2 hnin2
    have hxn : x ≠ n := by
      intro hxn
      apply hnin2
      rw [SimpleGraph.Walk.support_cons]
      exact List.mem_cons_of_mem _ (hxn ▸ q.start_mem_support)
    have hx := (hm x hadj).resolve_right hxn
    subst x
    have hqq := (SimpleGraph.Walk.cons_isCycle_iff q hadj).mp hc2
    obtain ⟨y, hadj2, q2, hq2⟩ := SimpleGraph.Walk.not_nil_iff.mp
      (show ¬ q.reverse.Nil from fun hh => hpm hh.eq.symm)
    have hyn : y ≠ n := by
      intro hyn
      apply hnin2
      have hy1 : y ∈ q.reverse.support := by
        rw [hq2, SimpleGraph.Walk.support_cons]
        exact List.mem_cons_of_mem _ q2.start_mem_support
      rw [SimpleGraph.Walk.support_reverse, List.mem_reverse] at hy1
      rw [SimpleGraph.Walk.support_cons]
      exact List.mem_cons_of_mem _ (hyn ▸ hy1)
    have hy := (hm y hadj2).resolve_right hyn
    subst y
    have hedge : s(m, p) ∈ q.reverse.edges := by
      rw [hq2, SimpleGraph.Walk.edges_cons]
      exact List.mem_cons_self _ _
    rw [SimpleGraph.Walk.edges_reverse, List.mem_reverse] at hedge
    exact hqq.2 hedge
  · have hsub : ∀ e ∈ c.edges, e ∈ G.edgeSet := by
      intro e he
      have hG2 := SimpleGraph.Walk.edges_subset_edgeSet c he
      revert he hG2
      induction e using Sym2.ind with
      | _ a b =>
        intro he hG2
        have ha := SimpleGraph.Walk.fst_mem_support_of_mem_edges c he
        have hb := SimpleGraph.Walk.snd_mem_support_of_mem_edges c he
        rw [SimpleGraph.mem_edgeSet] at hG2 ⊢
        exact hold a b (fun hh => hvn (hh ▸ ha)) (fun hh => hvm (hh ▸ ha))
          (fun hh => hvn (hh ▸ hb)) (fun hh => hvm (hh ▸ hb)) hG2
    exact hG (c.transfer G hsub) (hc.transfer hsub)

/-! ## The carving invariant is preserved by each carve step -/

theorem pathGraph_adj (M : Maze) (a b : Nat × Nat) :
    (pathGraph M).Adj a b ↔
      M a.1 a.2 = Tile.Path ∧ M b.1 b.2 = Tile.Path ∧ UnitAdj a b :=
  Iff.rfl

theorem reach_mono {M M2 : Maze} (hmono : ∀ a b, M a b = Tile.Path → M2 a b = Tile.Path)
    {q : Nat × Nat} (h : Reach M q) : Reach M2 q := by
  induction h with
  | start => exact Reach.start
  | step _ hadj hq IH => exact Reach.step IH hadj (hmono _ _ hq)

theorem paint2_inv (M : Maze) (c : Nat) (p n m : Nat × Nat)
    (hP : M p.1 p.2 = Tile.Path) (hW : M n.1 n.2 = Tile.Wall)
    (hpp1 : p.1 % 2 = 1) (hpp2 : p.2 % 2 = 1)
    (hnp1 : n.1 % 2 = 1) (hnp2 : n.2 % 2 = 1)
    (hin : 1 ≤ n.1 ∧ n.1 ≤ 19 ∧ 1 ≤ n.2 ∧ n.2 ≤ 19)
    (hgeo : (m.2 = p.2 ∧ m.2 = n.2 ∧
        ((n.1 = p.1 + 2 ∧ m.1 = p.1 + 1) ∨ (p.1 = n.1 + 2 ∧ m.1 = n.1 + 1))) ∨
      (m.1 = p.1 ∧ m.1 = n.1 ∧
        ((n.2 = p.2 + 2 ∧ m.2 = p.2 + 1) ∨ (p.2 = n.2 + 2 ∧ m.2 = n.2 + 1))))
    (hI : MazeInv (M, c)) :
    MazeInv (paint (paint (M, c) n.1 n.2) m.1 m.2) := by
  unfold MazeInv at hI
  obtain ⟨hInt, hV, hH, hEE, hR, hPC, hAC, hAcy⟩ := hI
  obtain ⟨hp1a, hp1b, hp2a, hp2b⟩ := hInt p.1 p.2 hP
  have hWne : M n.1 n.2 ≠ Tile.Path := by rw [hW]; decide
  have hpm_adj : UnitAdj p m := by unfold UnitAdj; omega
  have hmn_adj : UnitAdj m n := by unfold UnitAdj; omega
  have hmn_ne : ¬(m.1 = n.1 ∧ m.2 = n.2) := by omega
  -- freshness: the midpoint cell is still Wall
  have hMmWall : M m.1 m.2 = Tile.Wall := by
    rcases tile_cases (M m.1 m.2) with h | h
    · exact h
    · exfalso
      rcases hgeo with ⟨h1, h2, h3⟩ | ⟨h1, h2, h3⟩
      · have hend := hH m.1 m.2
          (by rcases h3 with ⟨h4, h5⟩ | ⟨h4, h5⟩ <;> omega) (by omega) h
        rcases h3 with ⟨h4, h5⟩ | ⟨h4, h5⟩
        · have he := hend.2
          rw [show m.1 + 1 = n.1 by omega, show m.2 = n.2 by omega] at he
          exact hWne he
        · have he := hend.1
          rw [show m.1 - 1 = n.1 by omega, show m.2 = n.2 by omega] at he
          exact hWne he
      · have hend := hV m.1 m.2
          (by omega) (by rcases h3 with ⟨h4, h5⟩ | ⟨h4, h5⟩ <;> omega) h
        rcases h3 with ⟨h4, h5⟩ | ⟨h4, h5⟩
        · have he := hend.2
          rw [show m.2 + 1 = n.2 by omega, show m.1 = n.1 by omega] at he
          exact hWne he
        · have he := hend.1
          rw [show m.2 - 1 = n.2 by omega, show m.1 = n.1 by omega] at he
          exact hWne he
  have hM1m : setCell M n.1 n.2 Tile.Path m.1 m.2 = Tile.Wall := by
    rw [setCell_of_ne _ _ _ _ hmn_ne]
    exact hMmWall
  have hM1mne : setCell M n.1 n.2 Tile.Path m.1 m.2 ≠ Tile.Path := by
    rw [hM1m]; decide
  have e1 : paint (M, c) n.1 n.2 = (setCell M n.1 n.2 Tile.Path, c + 1) := by
    unfold paint
    rw [if_pos hW]
  have e2 : paint (setCell M n.1 n.2 Tile.Path, c + 1) m.1 m.2 =
      (setCell (setCell M n.1 n.2 Tile.Path) m.1 m.2 Tile.Path, c + 2) := by
    unfold paint
    rw [if_pos hM1m]
  rw [e1, e2]
  set M2 := setCell (setCell M n.1 n.2 Tile.Path) m.1 m.2 Tile.Path with hM2def
  have hmono : ∀ a b, M a b = Tile.Path → M2 a b = Tile.Path := fun a b h =>
    setCell_path_mono _ _ (setCell_path_mono _ _ h)
  have hM2n : M2 n.1 n.2 = Tile.Path := by
    rw [hM2def, setCell_of_ne _ _ _ _ (by omega)]
    exact setCell_self _ _ _ _
  have hM2m : M2 m.1 m.2 = Tile.Path := setCell_self _ _ _ _
  have hM2p : M2 p.1 p.2 = Tile.Path := hmono _ _ hP
  have hchar : ∀ a b : Nat, M2 a b = Tile.Path →
      (a = n.1 ∧ b = n.2) ∨ (a = m.1 ∧ b = m.2) ∨ M a b = Tile.Path := by
    intro a b hab
    by_cases hm2 : a = m.1 ∧ b = m.2
    · exact Or.inr (Or.inl hm2)
    · rw [hM2def, setCell_of_ne _ _ _ _ hm2] at hab
      by_cases hn2 : a = n.1 ∧ b = n.2
      · exact Or.inl hn2
      · rw [setCell_of_ne _ _ _ _ hn2] at hab
        exact Or.inr (Or.inr hab)
  have hEE1 : NoEvenEven (setCell M n.1 n.2 Tile.Path) := by
    intro a b ha hb hab
    by_cases hcn : a = n.1 ∧ b = n.2
    · omega
    · rw [setCell_of_ne _ _ _ _ hcn] at hab
      exact hEE a b ha hb hab
  unfold MazeInv
  refine ⟨?_, ?_, ?_, ?_, ?_, ?_, ?_, ?_⟩
  · -- InteriorOnly
    intro a b hab
    rcases hchar a b hab with h | h | h
    · omega
    · rcases hgeo with ⟨h1, h2, h3⟩ | ⟨h1, h2, h3⟩ <;>
        rcases h3 with ⟨h4, h5⟩ | ⟨h4, h5⟩ <;> omega
    · exact hInt a b h
  · -- VertMidOk
    intro a b ha hb hab
    rcases hchar a b hab with h | h | h
    · omega
    · rcases hgeo with ⟨h1, h2, h3⟩ | ⟨h1, h2, h3⟩
      · exfalso
        rcases h3 with ⟨h4, h5⟩ | ⟨h4, h5⟩ <;> omega
      · rcases h3 with ⟨h4, h5⟩ | ⟨h4, h5⟩
        · constructor
          · rw [show a = p.1 by omega, show b - 1 = p.2 by omega]
            exact hM2p
          · rw [show a = n.1 by omega, show b + 1 = n.2 by omega]
            exact hM2n
        · constructor
          · rw [show a = n.1 by omega, show b - 1 = n.2 by omega]
            exact hM2n
          · rw [show a = p.1 by omega, show b + 1 = p.2 by omega]
            exact hM2p
    · have hend := hV a b ha hb h
      exact ⟨hmono _ _ hend.1, hmono _ _ hend.2⟩
  · -- HorizMidOk
    intro a b ha hb hab
    rcases hchar a b hab with h | h | h
    · omega
    · rcases hgeo with ⟨h1, h2, h3⟩ | ⟨h1, h2, h3⟩
      · rcases h3 with ⟨h4, h5⟩ | ⟨h4, h5⟩
        · constructor
          · rw [show a - 1 = p.1 by omega, show b = p.2 by omega]
            exact hM2p
          · rw [show a + 1 = n.1 by omega, show b = n.2 by omega]
            exact hM2n
        · constructor
          · rw [show a - 1 = n.1 by omega, show b = n.2 by omega]
            exact hM2n
          · rw [show a + 1 = p.1 by omega, show b = p.2 by omega]
            exact hM2p
      · exfalso
        rcases h3 with ⟨h4, h5⟩ | ⟨h4, h5⟩ <;> omega
    · have hend := hH a b ha hb h
      exact ⟨hmono _ _ hend.1, hmono _ _ hend.2⟩
  · -- NoEvenEven
    intro a b ha hb hab
    rcases hchar a b hab with h | h | h
    · omega
    · rcases hgeo with ⟨h1, h2, h3⟩ | ⟨h1, h2, h3⟩ <;>
        rcases h3 with ⟨h4, h5⟩ | ⟨h4, h5⟩ <;> omega
    · exact hEE a b ha hb h
  · -- ReachAll
    intro q hq
    rcases hchar q.1 q.2 hq with h | h | h
    · have hqn : q = n := Prod.ext h.1 h.2
      subst hqn
      exact Reach.step (Reach.step (reach_mono hmono (hR p hP)) hpm_adj hM2m)
        hmn_adj hM2n
    · have hqm : q = m := Prod.ext h.1 h.2
      subst hqm
      exact Reach.step (reach_mono hmono (hR p hP)) hpm_adj hM2m
    · exact reach_mono hmono (hR q h)
  · -- pathCount
    have hc1 : pathCount (setCell M n.1 n.2 Tile.Path) = pathCount M + 1 :=
      pathCount_setCell M (by omega) (by omega) hWne
    have hc2 : pathCount M2 = pathCount (setCell M n.1 n.2 Tile.Path) + 1 :=
      pathCount_setCell _ (by omega) (by omega) hM1mne
    simp only at hPC ⊢
    omega
  · -- adjCount
    have hp1lt : p.1 < 21 := by omega
    have hp2lt : p.2 < 21 := by omega
    have hn1lt : n.1 < 21 := by omega
    have hn2lt : n.2 < 21 := by omega
    have hfilter1 : Finset.univ.filter (fun q : Fin 21 × Fin 21 =>
        M q.1.val q.2.val = Tile.Path ∧ UnitAdj (n.1, n.2) (q.1.val, q.2.val)) = ∅ := by
      rw [Finset.eq_empty_iff_forall_not_mem]
      intro q hq
      rw [Finset.mem_filter] at hq
      exact hWne (path_neighbor_oddodd hV hH hnp1 hnp2 hq.2.2 hq.2.1)
    have hfilter2 : Finset.univ.filter (fun q : Fin 21 × Fin 21 =>
        setCell M n.1 n.2 Tile.Path q.1.val q.2.val = Tile.Path ∧
          UnitAdj (m.1, m.2) (q.1.val, q.2.val)) =
        {((⟨p.1, hp1lt⟩, ⟨p.2, hp2lt⟩) : Fin 21 × Fin 21),
         ((⟨n.1, hn1lt⟩, ⟨n.2, hn2lt⟩) : Fin 21 × Fin 21)} := by
      ext q
      simp only [Finset.mem_filter, Finset.mem_univ, true_and, Finset.mem_insert,
        Finset.mem_singleton]
      constructor
      · intro hq
        rcases hgeo with ⟨h1, h2, h3⟩ | ⟨h1, h2, h3⟩
        · have hax := mid_neighbor_horiz hEE1
            (show m.1 % 2 = 0 by rcases h3 with ⟨h4, h5⟩ | ⟨h4, h5⟩ <;> omega)
            (show m.2 % 2 = 1 by omega) hq.2 hq.1
          rcases h3 with ⟨h4, h5⟩ | ⟨h4, h5⟩
          · rcases hax.2 with h6 | h6
            · right
              exact Prod.ext (Fin.ext (show q.1.val = n.1 by omega))
                (Fin.ext (show q.2.val = n.2 by omega))
            · left
              exact Prod.ext (Fin.ext (show q.1.val = p.1 by omega))
                (Fin.ext (show q.2.val = p.2 by omega))
          · rcases hax.2 with h6 | h6
            · left
              exact Prod.ext (Fin.ext (show q.1.val = p.1 by omega))
                (Fin.ext (show q.2.val = p.2 by omega))
            · right
              exact Prod.ext (Fin.ext (show q.1.val = n.1 by omega))
                (Fin.ext (show q.2.val = n.2 by omega))
        · have hax := mid_neighbor_vert hEE1
            (show m.1 % 2 = 1 by omega)
            (show m.2 % 2 = 0 by rcases h3 with ⟨h4, h5⟩ | ⟨h4, h5⟩ <;> omega) hq.2 hq.1
          rcases h3 with ⟨h4, h5⟩ | ⟨h4, h5⟩
          · rcases hax.2 with h6 | h6
            · right
              exact Prod.ext (Fin.ext (show q.1.val = n.1 by omega))
                (Fin.ext (show q.2.val = n.2 by omega))
            · left
              exact Prod.ext (Fin.ext (show q.1.val = p.1 by omega))
                (Fin.ext (show q.2.val = p.2 by omega))
          · rcases hax.2 with h6 | h6
            · left
              exact Prod.ext (Fin.ext (show q.1.val = p.1 by omega))
                (Fin.ext (show q.2.val = p.2 by omega))
            · right
              exact Prod.ext (Fin.ext (show q.1.val = n.1 by omega))
                (Fin.ext (show q.2.val = n.2 by omega))
      · intro hq
        rcases hq with rfl | rfl
        · exact ⟨setCell_path_mono _ _ hP, (unitAdj_symm p m).mp hpm_adj⟩
        · exact ⟨setCell_self _ _ _ _, hmn_adj⟩
    have hA1 := adjCount_setCell M hn1lt hn2lt hWne
    rw [hfilter1, Finset.card_empty] at hA1
    have hA2 := adjCount_setCell (setCell M n.1 n.2 Tile.Path)
      (show m.1 < 21 by rcases hgeo with ⟨h1, h2, h3⟩ | ⟨h1, h2, h3⟩ <;>
        rcases h3 with ⟨h4, h5⟩ | ⟨h4, h5⟩ <;> omega)
      (show m.2 < 21 by rcases hgeo with ⟨h1, h2, h3⟩ | ⟨h1, h2, h3⟩ <;>
        rcases h3 with ⟨h4, h5⟩ | ⟨h4, h5⟩ <;> omega) hM1mne
    rw [hfilter2] at hA2
    have hcard2 : ({((⟨p.1, hp1lt⟩, ⟨p.2, hp2lt⟩) : Fin 21 × Fin 21),
        ((⟨n.1, hn1lt⟩, ⟨n.2, hn2lt⟩) : Fin 21 × Fin 21)} : Finset (Fin 21 × Fin 21)).card = 2 := by
      rw [Finset.card_insert_of_not_mem, Finset.card_singleton]
      rw [Finset.mem_singleton]
      intro he
      have he1 : p.1 = n.1 := congrArg (fun z => z.1.val) he
      have he2 : p.2 = n.2 := congrArg (fun z => z.2.val) he
      rcases hgeo with ⟨h1, h2, h3⟩ | ⟨h1, h2, h3⟩ <;>
        rcases h3 with ⟨h4, h5⟩ | ⟨h4, h5⟩ <;> omega
    rw [hcard2] at hA2
    rw [← hM2def] at hA2
    simp only at hAC ⊢
    omega
  · -- IsAcyclic
    have hpm_ne : p ≠ m := by
      intro he
      have he1 : p.1 = m.1 := congrArg Prod.fst he
      have he2 : p.2 = m.2 := congrArg Prod.snd he
      rcases hgeo with ⟨h1, h2, h3⟩ | ⟨h1, h2, h3⟩ <;>
        rcases h3 with ⟨h4, h5⟩ | ⟨h4, h5⟩ <;> omega
    have hnm_ne : n ≠ m := by
      intro he
      have he1 : n.1 = m.1 := congrArg Prod.fst he
      have he2 : n.2 = m.2 := congrArg Prod.snd he
      rcases hgeo with ⟨h1, h2, h3⟩ | ⟨h1, h2, h3⟩ <;>
        rcases h3 with ⟨h4, h5⟩ | ⟨h4, h5⟩ <;> omega
    refine isAcyclic_extend hpm_ne hnm_ne ?_ ?_ ?_ hAcy
    · -- neighbours of n in M2
      intro q hadj
      rw [pathGraph_adj] at hadj
      obtain ⟨hqn, hqP, hqA⟩ := hadj
      rcases hchar q.1 q.2 hqP with h | h | h
      · exfalso
        have hqe : q = n := Prod.ext h.1 h.2
        subst hqe
        exact unitAdj_irrefl _ hqA
      · exact Prod.ext h.1 h.2
      · exfalso
        exact hWne (path_neighbor_oddodd hV hH hnp1 hnp2 hqA h)
    · -- neighbours of m in M2
      intro q hadj
      rw [pathGraph_adj] at hadj
      obtain ⟨hqm, hqP, hqA⟩ := hadj
      rcases hchar q.1 q.2 hqP with h | h | h
      · exact Or.inr (Prod.ext h.1 h.2)
      · exfalso
        have hqe : q = m := Prod.ext h.1 h.2
        subst hqe
        exact unitAdj_irrefl _ hqA
      · rcases hgeo with ⟨h1, h2, h3⟩ | ⟨h1, h2, h3⟩
        · have hax := mid_neighbor_horiz hEE
            (show m.1 % 2 = 0 by rcases h3 with ⟨h4, h5⟩ | ⟨h4, h5⟩ <;> omega)
            (show m.2 % 2 = 1 by omega) hqA h
          rcases h3 with ⟨h4, h5⟩ | ⟨h4, h5⟩
          · rcases hax.2 with h6 | h6
            · exact Or.inr (Prod.ext (by omega) (by omega))
            · exact Or.inl (Prod.ext (by omega) (by omega))
          · rcases hax.2 with h6 | h6
            · exact Or.inl (Prod.ext (by omega) (by omega))
            · exact Or.inr (Prod.ext (by omega) (by omega))
        · have hax := mid_neighbor_vert hEE
            (show m.1 % 2 = 1 by omega)
            (show m.2 % 2 = 0 by rcases h3 with ⟨h4, h5⟩ | ⟨h4, h5⟩ <;> omega) hqA h
          rcases h3 with ⟨h4, h5⟩ | ⟨h4, h5⟩
          · rcases hax.2 with h6 | h6
            · exact Or.inr (Prod.ext (by omega) (by omega))
            · exact Or.inl (Prod.ext (by omega) (by omega))
          · rcases hax.2 with h6 | h6
            · exact Or.inl (Prod.ext (by omega) (by omega))
            · exact Or.inr (Prod.ext (by omega) (by omega))
    · -- edges between untouched vertices
      intro a b han ham hbn hbm hadj
      rw [pathGraph_adj] at hadj ⊢
      obtain ⟨haP, hbP, hab⟩ := hadj
      refine ⟨?_, ?_, hab⟩
      · rcases hchar a.1 a.2 haP with h | h | h
        · exact absurd (Prod.ext h.1 h.2) han
        · exact absurd (Prod.ext h.1 h.2) ham
        · exact h
      · rcases hchar b.1 b.2 hbP with h | h | h
        · exact absurd (Prod.ext h.1 h.2) hbn
        · exact absurd (Prod.ext h.1 h.2) hbm
        · exact h

theorem carveStep_inv {a b : Maze × Nat} (st : CarveStep a b) (hI : MazeInv a) :
    MazeInv b := by
  cases st with
  | mk M c x y dx dy hd hox hoy hpath hb1 hb2 hb3 hb4 hwall =>
    have hb3' : ((x : Int) + dx).toNat < 20 := hb3
    have hb4' : ((y : Int) + dy).toNat < 20 := hb4
    have hxyb := hI.1 x y hpath
    rcases baseDirs_cases hd with ⟨rfl, rfl⟩ | ⟨rfl, rfl⟩ | ⟨rfl, rfl⟩ | ⟨rfl, rfl⟩
    · have e1 : ((x : Int) + 2).toNat = x + 2 := by omega
      have e2 : ((y : Int) + 0).toNat = y := by omega
      have e3 : ((x : Int) + Int.tdiv 2 2).toNat = x + 1 := by
        have ht : Int.tdiv 2 2 = 1 := by decide
        rw [ht]; omega
      have e4 : ((y : Int) + Int.tdiv 0 2).toNat = y := by
        have ht : Int.tdiv (0 : Int) 2 = 0 := by decide
        rw [ht]; omega
      rw [e1, e2] at hwall
      rw [e1] at hb3'
      rw [e1, e2, e3, e4]
      exact paint2_inv M c (x, y) (x + 2, y) (x + 1, y) hpath hwall hox hoy
        (show (x + 2) % 2 = 1 by omega) (show y % 2 = 1 by omega)
        (show 1 ≤ x + 2 ∧ x + 2 ≤ 19 ∧ 1 ≤ y ∧ y ≤ 19 by omega)
        (Or.inl ⟨rfl, rfl, Or.inl ⟨rfl, rfl⟩⟩) hI
    · have hx3 : 3 ≤ x := by omega
      have e1 : ((x : Int) + (-2)).toNat = x - 2 := by omega
      have e2 : ((y : Int) + 0).toNat = y := by omega
      have e3 : ((x : Int) + Int.tdiv (-2) 2).toNat = x - 1 := by
        have ht : Int.tdiv (-2) 2 = -1 := by decide
        rw [ht]; omega
      have e4 : ((y : Int) + Int.tdiv 0 2).toNat = y := by
        have ht : Int.tdiv (0 : Int) 2 = 0 := by decide
        rw [ht]; omega
      rw [e1, e2] at hwall
      rw [e1] at hb3'
      rw [e1, e2, e3, e4]
      exact paint2_inv M c (x, y) (x - 2, y) (x - 1, y) hpath hwall hox hoy
        (show (x - 2) % 2 = 1 by omega) (show y % 2 = 1 by omega)
        (show 1 ≤ x - 2 ∧ x - 2 ≤ 19 ∧ 1 ≤ y ∧ y ≤ 19 by omega)
        (Or.inl ⟨rfl, rfl, Or.inr ⟨show x = x - 2 + 2 by omega,
          show x - 1 = x - 2 + 1 by omega⟩⟩) hI
    · have e1 : ((x : Int) + 0).toNat = x := by omega
      have e2 : ((y : Int) + 2).toNat = y + 2 := by omega
      have e3 : ((x : Int) + Int.tdiv 0 2).toNat = x := by
        have ht : Int.tdiv (0 : Int) 2 = 0 := by decide
        rw [ht]; omega
      have e4 : ((y : Int) + Int.tdiv 2 2).toNat = y + 1 := by
        have ht : Int.tdiv 2 2 = 1 := by decide
        rw [ht]; omega
      rw [e1, e2] at hwall
      rw [e2] at hb4'
      rw [e1, e2, e3, e4]
      exact paint2_inv M c (x, y) (x, y + 2) (x, y + 1) hpath hwall hox hoy
        (show x % 2 = 1 by omega) (show (y + 2) % 2 = 1 by omega)
        (show 1 ≤ x ∧ x ≤ 19 ∧ 1 ≤ y + 2 ∧ y + 2 ≤ 19 by omega)
        (Or.inr ⟨rfl, rfl, Or.inl ⟨rfl, rfl⟩⟩) hI
    · have hy3 : 3 ≤ y := by omega
      have e1 : ((x : Int) + 0).toNat = x := by omega
      have e2 : ((y : Int) + (-2)).toNat = y - 2 := by omega
      have e3 : ((x : Int) + Int.tdiv 0 2).toNat = x := by
        have ht : Int.tdiv (0 : Int) 2 = 0 := by decide
        rw [ht]; omega
      have e4 : ((y : Int) + Int.tdiv (-2) 2).toNat = y - 1 := by
        have ht : Int.tdiv (-2) 2 = -1 := by decide
        rw [ht]; omega
      rw [e1, e2] at hwall
      rw [e2] at hb4'
      rw [e1, e2, e3, e4]
      exact paint2_inv M c (x, y) (x, y - 2) (x, y - 1) hpath hwall hox hoy
        (show x % 2 = 1 by omega) (show (y - 2) % 2 = 1 by omega)
        (show 1 ≤ x ∧ x ≤ 19 ∧ 1 ≤ y - 2 ∧ y - 2 ≤ 19 by omega)
        (Or.inr ⟨rfl, rfl, Or.inr ⟨show y = y - 2 + 2 by omega,
          show y - 1 = y - 2 + 1 by omega⟩⟩) hI

theorem carved_inv {a b : Maze × Nat} (h : Carved a b) (hI : MazeInv a) : MazeInv b := by
  induction h with
  | refl => exact hI
  | tail _ hbc IH => exact carveStep_inv hbc IH

theorem init_inv : MazeInv (initMaze, 0) := by
  unfold MazeInv
  refine ⟨?_, ?_, ?_, ?_, ?_, ?_, ?_, ?_⟩
  · intro x y h
    rw [initMaze_path_iff] at h
    omega
  · intro x y hx hy h
    rw [initMaze_path_iff] at h
    omega
  · intro x y hx hy h
    rw [initMaze_path_iff] at h
    omega
  · intro x y hx hy h
    rw [initMaze_path_iff] at h
    omega
  · intro q h
    rw [initMaze_path_iff] at h
    have hq : q = ((1 : Nat), (1 : Nat)) := Prod.ext h.1 h.2
    rw [hq]
    exact Reach.start
  · show pathCount initMaze = 1 + 0
    unfold pathCount
    have hset : Finset.univ.filter
        (fun p : Fin 21 × Fin 21 => initMaze p.1.val p.2.val = Tile.Path) =
        {((1 : Fin 21), (1 : Fin 21))} := by
      ext p
      simp only [Finset.mem_filter, Finset.mem_univ, true_and, Finset.mem_singleton]
      rw [initMaze_path_iff]
      constructor
      · intro hp
        exact Prod.ext (Fin.ext hp.1) (Fin.ext hp.2)
      · intro hp
        rw [hp]
        exact ⟨rfl, rfl⟩
    rw [hset, Finset.card_singleton]
  · show adjCount initMaze = 2 * 0
    unfold adjCount
    rw [Nat.mul_zero]
    apply Finset.sum_eq_zero
    intro p _
    apply Finset.sum_eq_zero
    intro q _
    have hne : ¬(initMaze p.1.val p.2.val = Tile.Path ∧
        initMaze q.1.val q.2.val = Tile.Path ∧
        UnitAdj (p.1.val, p.2.val) (q.1.val, q.2.val)) := by
      rintro ⟨h1, h2, h3⟩
      rw [initMaze_path_iff] at h1 h2
      unfold UnitAdj at h3
      dsimp only at h3
      omega
    rw [if_neg hne]
  · intro v c hc
    obtain ⟨x, hadj, q, rfl⟩ := SimpleGraph.Walk.not_nil_iff.mp hc.not_nil
    rw [pathGraph_adj] at hadj
    obtain ⟨h1, h2, h3⟩ := hadj
    rw [initMaze_path_iff] at h1 h2
    have hv : v = ((1 : Nat), (1 : Nat)) := Prod.ext h1.1 h1.2
    have hx : x = ((1 : Nat), (1 : Nat)) := Prod.ext h2.1 h2.2
    rw [hv, hx] at h3
    exact unitAdj_irrefl _ h3

/-! ## The carving recursion only performs carve steps -/

theorem carveDirs_carved (rec : Nat → Nat → GenState → GenState)
    (hrec : ∀ x y s, x % 2 = 1 → y % 2 = 1 → s.maze x y = Tile.Path →
      Carved (mcOf s) (mcOf (rec x y s))) :
    ∀ (dirs : List (Int × Int)), (∀ d ∈ dirs, d ∈ baseDirs) →
    ∀ x y s, x % 2 = 1 → y % 2 = 1 → s.maze x y = Tile.Path →
    Carved (mcOf s) (mcOf (carveDirs rec x y dirs s))
  | [], _, x, y, s, _, _, _ => Relation.ReflTransGen.refl
  | (dx, dy) :: rest, hdirs, x, y, s, hox, hoy, hpath => by
    rw [carveDirs_cons]
    by_cases hg : 0 < (x : Int) + dx ∧ 0 < (y : Int) + dy ∧
        ((x : Int) + dx).toNat < MAZE_WIDTH - 1 ∧ ((y : Int) + dy).toNat < MAZE_HEIGHT - 1
    · rw [if_pos hg]
      by_cases hw : s.maze ((x : Int) + dx).toNat ((y : Int) + dy).toNat = Tile.Wall
      · rw [if_pos hw]
        have hd : (dx, dy) ∈ baseDirs := hdirs _ (List.mem_cons_self _ _)
        have hstep : CarveStep (mcOf s)
            (mcOf (carvePaint (carvePaint s ((x : Int) + dx).toNat ((y : Int) + dy).toNat)
              ((x : Int) + Int.tdiv dx 2).toNat ((y : Int) + Int.tdiv dy 2).toNat)) := by
          rw [carvePaint_mcOf, carvePaint_mcOf]
          exact CarveStep.mk s.maze s.carves x y dx dy hd hox hoy hpath
            hg.1 hg.2.1 hg.2.2.1 hg.2.2.2 hw
        have hnodd : ((x : Int) + dx).toNat % 2 = 1 ∧ ((y : Int) + dy).toNat % 2 = 1 := by
          rcases baseDirs_cases hd with ⟨rfl, rfl⟩ | ⟨rfl, rfl⟩ | ⟨rfl, rfl⟩ | ⟨rfl, rfl⟩ <;>
            exact ⟨by omega, by omega⟩
        have hmidne : ¬(((x : Int) + dx).toNat = ((x : Int) + Int.tdiv dx 2).toNat ∧
            ((y : Int) + dy).toNat = ((y : Int) + Int.tdiv dy 2).toNat) := by
          rcases baseDirs_cases hd with ⟨rfl, rfl⟩ | ⟨rfl, rfl⟩ | ⟨rfl, rfl⟩ | ⟨rfl, rfl⟩ <;>
          · have ht2 : Int.tdiv 2 2 = 1 := by decide
            have htm2 : Int.tdiv (-2) 2 = -1 := by decide
            have ht0 : Int.tdiv (0 : Int) 2 = 0 := by decide
            simp only [ht2, htm2, ht0]
            omega
        have hs2path : (carvePaint (carvePaint s ((x : Int) + dx).toNat ((y : Int) + dy).toNat)
            ((x : Int) + Int.tdiv dx 2).toNat ((y : Int) + Int.tdiv dy 2).toNat).maze
            ((x : Int) + dx).toNat ((y : Int) + dy).toNat = Tile.Path := by
          rw [carvePaint_maze, carvePaint_maze]
          rw [setCell_of_ne _ _ _ _ hmidne]
          exact setCell_self _ _ _ _
        have h1 := hrec _ _ _ hnodd.1 hnodd.2 hs2path
        have hparent2 := carveStep_mono hstep hpath
        have hparent3 := carved_mono h1 hparent2
        have IH := carveDirs_carved rec hrec rest
          (fun d hdm => hdirs d (List.mem_cons_of_mem _ hdm)) x y _ hox hoy hparent3
        exact Relation.ReflTransGen.trans
          (Relation.ReflTransGen.trans (Relation.ReflTransGen.single hstep) h1) IH
      · rw [if_neg hw]
        exact carveDirs_carved rec hrec rest
          (fun d hdm => hdirs d (List.mem_cons_of_mem _ hdm)) x y s hox hoy hpath
    · rw [if_neg hg]
      exact carveDirs_carved rec hrec rest
        (fun d hdm => hdirs d (List.mem_cons_of_mem _ hdm)) x y s hox hoy hpath

theorem carveF_carved (rng : Nat → List (Int × Int)) (hr : GoodRng rng) :
    ∀ f x y s, x % 2 = 1 → y % 2 = 1 → s.maze x y = Tile.Path →
    Carved (mcOf s) (mcOf (carveF rng f x y s))
  | 0, x, y, s, _, _, _ => Relation.ReflTransGen.refl
  | f + 1, x, y, s, hox, hoy, hpath => by
    rw [carveF_succ]
    exact carveDirs_carved (carveF rng f)
      (fun a b s2 ha hb hp => carveF_carved rng hr f a b s2 ha hb hp)
      (rng s.k) (fun d hd => (hr s.k).mem_iff.mp hd) x y { s with k := s.k + 1 }
      hox hoy hpath

theorem init_start_path : initMaze 1 1 = Tile.Path := by
  rw [initMaze_path_iff]
  exact ⟨rfl, rfl⟩

theorem genRun_carved (rng : Nat → List (Int × Int)) (hr : GoodRng rng) :
    Carved (initMaze, 0) (mcOf (genRun rng)) := by
  unfold genRun
  exact carveF_carved rng hr FUEL 1 1 ⟨initMaze, 0, 0⟩ rfl rfl init_start_path

theorem genRun_inv (rng : Nat → List (Int × Int)) (hr : GoodRng rng) :
    MazeInv (mcOf (genRun rng)) :=
  carved_inv (genRun_carved rng hr) init_inv

/-! ## Claims about the generated maze -/

/-- C2: on every grid returned by `generate_maze` (21 columns and rows), every
cell in row 0, row 20, column 0, or column 20 is `Wall`. -/
theorem C2_boundary_walls (rng : Nat → List (Int × Int)) (hr : GoodRng rng)
    (x y : Nat)
    (hb : x = 0 ∨ x = MAZE_WIDTH - 1 ∨ y = 0 ∨ y = MAZE_HEIGHT - 1)
    (hx : x < MAZE_WIDTH) (hy : y < MAZE_HEIGHT) :
    generate_maze rng x y = Tile.Wall := by
  rcases tile_cases (generate_maze rng x y) with h | h
  · exact h
  · exfalso
    have hi := (genRun_inv rng hr).1 x y h
    have hb2 : x = 0 ∨ x = 20 ∨ y = 0 ∨ y = 20 := hb
    omega

/-- Witness for C2: with the identity shuffle, cells on all four boundary
edges are `Wall`. -/
theorem C2_boundary_walls_witness :
    generate_maze rng0 0 5 = Tile.Wall ∧ generate_maze rng0 20 7 = Tile.Wall ∧
    generate_maze rng0 11 0 = Tile.Wall ∧ generate_maze rng0 13 20 = Tile.Wall := by
  refine ⟨?_, ?_, ?_, ?_⟩ <;>
    exact C2_boundary_walls rng0 (fun _ => List.Perm.refl _) _ _ (by decide)
      (by decide) (by decide)

/-- C1: on every grid returned by `generate_maze`, a cell is `Path` exactly
when the flood fill from the start `(1, 1)` reaches it by 4-directional steps
on `Path` cells: the flood fill visits exactly the set of `Path` cells. -/
theorem C1_connectivity (rng : Nat → List (Int × Int)) (hr : GoodRng rng)
    (p : Nat × Nat) :
    generate_maze rng p.1 p.2 = Tile.Path ↔ Reach (generate_maze rng) p := by
  constructor
  · intro h
    exact (genRun_inv rng hr).2.2.2.2.1 p h
  · intro h
    induction h with
    | start => exact carved_mono (genRun_carved rng hr) init_start_path
    | step _ hadj hq IH => exact hq

/-- Witness for C1 at the identity shuffle and two sample cells. -/
theorem C1_connectivity_witness :
    (generate_maze rng0 1 1 = Tile.Path ↔ Reach (generate_maze rng0) (1, 1)) ∧
    (generate_maze rng0 0 0 = Tile.Path ↔ Reach (generate_maze rng0) (0, 0)) :=
  ⟨C1_connectivity rng0 (fun _ => List.Perm.refl _) (1, 1),
   C1_connectivity rng0 (fun _ => List.Perm.refl _) (0, 0)⟩

/-- C8: on every grid returned by `generate_maze`, the number of `Path` cells
is one more than the number of successful carve operations (Wall→Path
conversions) performed during generation; equivalently, the number of
undirected carving edges between adjacent `Path` cells (half of `adjCount`)
equals that count, so it is the number of `Path` cells minus one; and the
graph on `Path` cells has no cycle. -/
theorem C8_tree_property (rng : Nat → List (Int × Int)) (hr : GoodRng rng) :
    pathCount (generate_maze rng) = 1 + (genRun rng).carves ∧
    adjCount (generate_maze rng) = 2 * (genRun rng).carves ∧
    (pathGraph (generate_maze rng)).IsAcyclic := by
  have hI := genRun_inv rng hr
  exact ⟨hI.2.2.2.2.2.1, hI.2.2.2.2.2.2.1, hI.2.2.2.2.2.2.2⟩

/-- Witness for C8 at the identity shuffle. -/
theorem C8_tree_property_witness :
    pathCount (generate_maze rng0) = 1 + (genRun rng0).carves ∧
    adjCount (generate_maze rng0) = 2 * (genRun rng0).carves ∧
    (pathGraph (generate_maze rng0)).IsAcyclic :=
  C8_tree_property rng0 (fun _ => List.Perm.refl _)

/-! ## Completeness: the recursion carves every odd-lattice cell -/

theorem doneAt_mono {M M2 : Maze} (hmono : ∀ a b, M a b = Tile.Path → M2 a b = Tile.Path)
    {x y : Nat} (h : DoneAt M x y) : DoneAt M2 x y :=
  fun dx dy hd h1 h2 h3 h4 => hmono _ _ (h dx dy hd h1 h2 h3 h4)

theorem count_partition (M : Maze) : pathCount M + wallCount M = 441 := by
  unfold pathCount wallCount
  have hcongr : Finset.univ.filter (fun p : Fin 21 × Fin 21 => M p.1.val p.2.val = Tile.Wall) =
      Finset.univ.filter (fun p : Fin 21 × Fin 21 => ¬(M p.1.val p.2.val = Tile.Path)) := by
    apply Finset.filter_congr
    intro p _
    rcases tile_cases (M p.1.val p.2.val) with h | h <;> rw [h] <;> simp
  rw [hcongr, Finset.filter_card_add_filter_neg_card_eq_card, Finset.card_univ]
  rw [Fintype.card_prod, Fintype.card_fin]

theorem wallCount_init : wallCount initMaze = 440 := by
  have h1 : pathCount initMaze = 1 + 0 := init_inv.2.2.2.2.2.1
  have h2 := count_partition initMaze
  omega

theorem carveDirs_complete (rec : Nat → Nat → GenState → GenState) (g : Nat)
    (hrecC : ∀ x y s, x % 2 = 1 → y % 2 = 1 → s.maze x y = Tile.Path →
        wallCount s.maze < g →
        DoneAt (rec x y s).maze x y ∧
        (∀ a b, a % 2 = 1 → b % 2 = 1 → (rec x y s).maze a b = Tile.Path →
          s.maze a b = Tile.Path ∨ DoneAt (rec x y s).maze a b))
    (hrecM : ∀ x y s, x % 2 = 1 → y % 2 = 1 → s.maze x y = Tile.Path →
        Carved (mcOf s) (mcOf (rec x y s))) :
    ∀ (dirs : List (Int × Int)), (∀ d ∈ dirs, d ∈ baseDirs) →
    ∀ x y s, x % 2 = 1 → y % 2 = 1 → s.maze x y = Tile.Path →
    wallCount s.maze ≤ g →
    Carved (mcOf s) (mcOf (carveDirs rec x y dirs s)) ∧
    (∀ dx dy, (dx, dy) ∈ dirs → 0 < (x : Int) + dx → 0 < (y : Int) + dy →
      ((x : Int) + dx).toNat < MAZE_WIDTH - 1 → ((y : Int) + dy).toNat < MAZE_HEIGHT - 1 →
      (carveDirs rec x y dirs s).maze ((x : Int) + dx).toNat ((y : Int) + dy).toNat =
        Tile.Path) ∧
    (∀ a b, a % 2 = 1 → b % 2 = 1 → (carveDirs rec x y dirs s).maze a b = Tile.Path →
      s.maze a b = Tile.Path ∨ DoneAt (carveDirs rec x y dirs s).maze a b)
  | [], _, x, y, s, _, _, _, _ =>
    ⟨Relation.ReflTransGen.refl,
     fun dx dy hmem => absurd hmem (List.not_mem_nil _),
     fun a b _ _ h => Or.inl h⟩
  | (dx, dy) :: rest, hdirs, x, y, s, hox, hoy, hpath, hwc => by
    rw [carveDirs_cons]
    by_cases hg : 0 < (x : Int) + dx ∧ 0 < (y : Int) + dy ∧
        ((x : Int) + dx).toNat < MAZE_WIDTH - 1 ∧ ((y : Int) + dy).toNat < MAZE_HEIGHT - 1
    · rw [if_pos hg]
      by_cases hw : s.maze ((x : Int) + dx).toNat ((y : Int) + dy).toNat = Tile.Wall
      · rw [if_pos hw]
        have hd : (dx, dy) ∈ baseDirs := hdirs _ (List.mem_cons_self _ _)
        have hstep : CarveStep (mcOf s)
            (mcOf (carvePaint (carvePaint s ((x : Int) + dx).toNat ((y : Int) + dy).toNat)
              ((x : Int) + Int.tdiv dx 2).toNat ((y : Int) + Int.tdiv dy 2).toNat)) := by
          rw [carvePaint_mcOf, carvePaint_mcOf]
          exact CarveStep.mk s.maze s.carves x y dx dy hd hox hoy hpath
            hg.1 hg.2.1 hg.2.2.1 hg.2.2.2 hw
        have hnodd : ((x : Int) + dx).toNat % 2 = 1 ∧ ((y : Int) + dy).toNat % 2 = 1 := by
          rcases baseDirs_cases hd with ⟨rfl, rfl⟩ | ⟨rfl, rfl⟩ | ⟨rfl, rfl⟩ | ⟨rfl, rfl⟩ <;>
            exact ⟨by omega, by omega⟩
        have hmidne : ¬(((x : Int) + dx).toNat = ((x : Int) + Int.tdiv dx 2).toNat ∧
            ((y : Int) + dy).toNat = ((y : Int) + Int.tdiv dy 2).toNat) := by
          rcases baseDirs_cases hd with ⟨rfl, rfl⟩ | ⟨rfl, rfl⟩ | ⟨rfl, rfl⟩ | ⟨rfl, rfl⟩ <;>
          · have ht2 : Int.tdiv 2 2 = 1 := by decide
            have htm2 : Int.tdiv (-2) 2 = -1 := by decide
            have ht0 : Int.tdiv (0 : Int) 2 = 0 := by decide
            simp only [ht2, htm2, ht0]
            omega
        have hs2path : (carvePaint (carvePaint s ((x : Int) + dx).toNat ((y : Int) + dy).toNat)
            ((x : Int) + Int.tdiv dx 2).toNat ((y : Int) + Int.tdiv dy 2).toNat).maze
            ((x : Int) + dx).toNat ((y : Int) + dy).toNat = Tile.Path := by
          rw [carvePaint_maze, carvePaint_maze]
          rw [setCell_of_ne _ _ _ _ hmidne]
          exact setCell_self _ _ _ _
        have hwc2 : wallCount (carvePaint (carvePaint s ((x : Int) + dx).toNat
            ((y : Int) + dy).toNat) ((x : Int) + Int.tdiv dx 2).toNat
            ((y : Int) + Int.tdiv dy 2).toNat).maze < g := by
          have h5 : wallCount (carvePaint (carvePaint s ((x : Int) + dx).toNat
              ((y : Int) + dy).toNat) ((x : Int) + Int.tdiv dx 2).toNat
              ((y : Int) + Int.tdiv dy 2).toNat).maze < wallCount s.maze :=
            carveStep_wallCount hstep
          omega
        have hC := hrecC _ _ _ hnodd.1 hnodd.2 hs2path hwc2
        have hM := hrecM _ _ _ hnodd.1 hnodd.2 hs2path
        have hparent2 := carveStep_mono hstep hpath
        have hparent3 := carved_mono hM hparent2
        have hwc3 : wallCount (rec ((x : Int) + dx).toNat ((y : Int) + dy).toNat
            (carvePaint (carvePaint s ((x : Int) + dx).toNat ((y : Int) + dy).toNat)
              ((x : Int) + Int.tdiv dx 2).toNat ((y : Int) + Int.tdiv dy 2).toNat)).maze ≤ g := by
          have h5 : wallCount (rec ((x : Int) + dx).toNat ((y : Int) + dy).toNat
              (carvePaint (carvePaint s ((x : Int) + dx).toNat ((y : Int) + dy).toNat)
                ((x : Int) + Int.tdiv dx 2).toNat ((y : Int) + Int.tdiv dy 2).toNat)).maze ≤
              wallCount (carvePaint (carvePaint s ((x : Int) + dx).toNat
                ((y : Int) + dy).toNat) ((x : Int) + Int.tdiv dx 2).toNat
                ((y : Int) + Int.tdiv dy 2).toNat).maze :=
            carved_wallCount hM
          omega
        have IH := carveDirs_complete rec g hrecC hrecM rest
          (fun d hdm => hdirs d (List.mem_cons_of_mem _ hdm)) x y _ hox hoy hparent3 hwc3
        refine ⟨Relation.ReflTransGen.trans
          (Relation.ReflTransGen.trans (Relation.ReflTransGen.single hstep) hM) IH.1,
          ?_, ?_⟩
        · intro dx2 dy2 hmem h1 h2 h3 h4
          rcases List.mem_cons.mp hmem with heq | hmem2
          · rw [Prod.mk.injEq] at heq
            obtain ⟨rfl, rfl⟩ := heq
            exact carved_mono IH.1 (carved_mono hM hs2path)
          · exact IH.2.1 dx2 dy2 hmem2 h1 h2 h3 h4
        · intro a b ha hb hPr
          rcases IH.2.2 a b ha hb hPr with h | h
          · rcases hC.2 a b ha hb h with h2 | h2
            · by_cases hmn : a = ((x : Int) + dx).toNat ∧ b = ((y : Int) + dy).toNat
              · right
                rw [hmn.1, hmn.2]
                exact doneAt_mono (fun i j hij => carved_mono IH.1 hij) hC.1
              · by_cases hmm : a = ((x : Int) + Int.tdiv dx 2).toNat ∧
                    b = ((y : Int) + Int.tdiv dy 2).toNat
                · exfalso
                  rcases baseDirs_cases hd with ⟨rfl, rfl⟩ | ⟨rfl, rfl⟩ | ⟨rfl, rfl⟩ | ⟨rfl, rfl⟩ <;>
                  · have ht2 : Int.tdiv 2 2 = 1 := by decide
                    have htm2 : Int.tdiv (-2) 2 = -1 := by decide
                    have ht0 : Int.tdiv (0 : Int) 2 = 0 := by decide
                    have hg1 := hg.1
                    have hg2 := hg.2.1
                    simp only [ht2, htm2, ht0] at hmm
                    omega
                · left
                  rw [carvePaint_maze, carvePaint_maze,
                    setCell_of_ne _ _ _ _ hmm, setCell_of_ne _ _ _ _ hmn] at h2
                  exact h2
            · right
              exact doneAt_mono (fun i j hij => carved_mono IH.1 hij) h2
          · exact Or.inr h
      · rw [if_neg hw]
        have IH := carveDirs_complete rec g hrecC hrecM rest
          (fun d hdm => hdirs d (List.mem_cons_of_mem _ hdm)) x y s hox hoy hpath hwc
        refine ⟨IH.1, ?_, IH.2.2⟩
        intro dx2 dy2 hmem h1 h2 h3 h4
        rcases List.mem_cons.mp hmem with heq | hmem2
        · rw [Prod.mk.injEq] at heq
          obtain ⟨rfl, rfl⟩ := heq
          rcases tile_cases (s.maze ((x : Int) + dx2).toNat ((y : Int) + dy2).toNat) with
            hcell | hcell
          · exact absurd hcell hw
          · exact carved_mono IH.1 hcell
        · exact IH.2.1 dx2 dy2 hmem2 h1 h2 h3 h4
    · rw [if_neg hg]
      have IH := carveDirs_complete rec g hrecC hrecM rest
        (fun d hdm => hdirs d (List.mem_cons_of_mem _ hdm)) x y s hox hoy hpath hwc
      refine ⟨IH.1, ?_, IH.2.2⟩
      intro dx2 dy2 hmem h1 h2 h3 h4
      rcases List.mem_cons.mp hmem with heq | hmem2
      · rw [Prod.mk.injEq] at heq
        obtain ⟨rfl, rfl⟩ := heq
        exact absurd ⟨h1, h2, h3, h4⟩ hg
      · exact IH.2.1 dx2 dy2 hmem2 h1 h2 h3 h4

theorem carveF_complete (rng : Nat → List (Int × Int)) (hr : GoodRng rng) :
    ∀ f x y s, x % 2 = 1 → y % 2 = 1 → s.maze x y = Tile.Path →
    wallCount s.maze < f →
    DoneAt (carveF rng f x y s).maze x y ∧
    (∀ a b, a % 2 = 1 → b % 2 = 1 → (carveF rng f x y s).maze a b = Tile.Path →
      s.maze a b = Tile.Path ∨ DoneAt (carveF rng f x y s).maze a b)
  | 0, x, y, s, _, _, _, hlt => absurd hlt (by omega)
  | f + 1, x, y, s, hox, hoy, hpath, hlt => by
    rw [carveF_succ]
    have H := carveDirs_complete (carveF rng f) f
      (fun a b s2 ha hb hp hwc => carveF_complete rng hr f a b s2 ha hb hp hwc)
      (fun a b s2 ha hb hp => carveF_carved rng hr f a b s2 ha hb hp)
      (rng s.k) (fun d hd => (hr s.k).mem_iff.mp hd) x y { s with k := s.k + 1 }
      hox hoy hpath (show wallCount s.maze ≤ f by omega)
    refine ⟨?_, H.2.2⟩
    intro dx dy hd h1 h2 h3 h4
    exact H.2.1 dx dy ((hr s.k).mem_iff.mpr hd) h1 h2 h3 h4

/-- Every odd/odd interior lattice cell of a generated maze is `Path`. -/
theorem gen_all_odd (rng : Nat → List (Int × Int)) (hr : GoodRng rng) :
    ∀ i, i ≤ 9 → ∀ j, j ≤ 9 →
    generate_maze rng (2 * i + 1) (2 * j + 1) = Tile.Path := by
  have hC := carveF_complete rng hr FUEL 1 1 ⟨initMaze, 0, 0⟩ rfl rfl init_start_path
    (show wallCount initMaze < FUEL by rw [wallCount_init]; decide)
  have hstart : generate_maze rng 1 1 = Tile.Path :=
    carved_mono (genRun_carved rng hr) init_start_path
  have hdone : ∀ a b, a % 2 = 1 → b % 2 = 1 → generate_maze rng a b = Tile.Path →
      DoneAt (generate_maze rng) a b := by
    intro a b ha hb hP
    rcases hC.2 a b ha hb hP with h | h
    · rw [initMaze_path_iff] at h
      rw [h.1, h.2]
      exact hC.1
    · exact h
  have hstepx : ∀ a b, a % 2 = 1 → b % 2 = 1 → a + 2 ≤ 19 → b ≤ 19 →
      generate_maze rng a b = Tile.Path → generate_maze rng (a + 2) b = Tile.Path := by
    intro a b ha hb haz hbz hP
    have hD := hdone a b ha hb hP 2 0 (by decide) (by omega) (by omega)
      (show ((a : Int) + 2).toNat < MAZE_WIDTH - 1 by
        show ((a : Int) + 2).toNat < 20
        omega)
      (show ((b : Int) + 0).toNat < MAZE_HEIGHT - 1 by
        show ((b : Int) + 0).toNat < 20
        omega)
    rwa [show ((a : Int) + 2).toNat = a + 2 by omega,
      show ((b : Int) + 0).toNat = b by omega] at hD
  have hstepy : ∀ a b, a % 2 = 1 → b % 2 = 1 → a ≤ 19 → b + 2 ≤ 19 →
      generate_maze rng a b = Tile.Path → generate_maze rng a (b + 2) = Tile.Path := by
    intro a b ha hb haz hbz hP
    have hD := hdone a b ha hb hP 0 2 (by decide) (by omega) (by omega)
      (show ((a : Int) + 0).toNat < MAZE_WIDTH - 1 by
        show ((a : Int) + 0).toNat < 20
        omega)
      (show ((b : Int) + 2).toNat < MAZE_HEIGHT - 1 by
        show ((b : Int) + 2).toNat < 20
        omega)
    rwa [show ((a : Int) + 0).toNat = a by omega,
      show ((b : Int) + 2).toNat = b + 2 by omega] at hD
  have hcol : ∀ j, j ≤ 9 → generate_maze rng 1 (2 * j + 1) = Tile.Path := by
    intro j
    induction j with
    | zero => exact fun _ => hstart
    | succ jj IH =>
      intro hj
      have h1 := IH (by omega)
      have h2 := hstepy 1 (2 * jj + 1) (by omega) (by omega) (by omega) (by omega) h1
      rw [show 2 * (jj + 1) + 1 = 2 * jj + 1 + 2 by omega]
      exact h2
  intro i
  induction i with
  | zero => exact fun _ j hj => hcol j hj
  | succ ii IH =>
    intro hi j hj
    have h1 := IH (by omega) j hj
    have h2 := hstepx (2 * ii + 1) (2 * j + 1) (by omega) (by omega) (by omega)
      (by omega) h1
    rw [show 2 * (ii + 1) + 1 = 2 * ii + 1 + 2 by omega]
    exact h2

/-- C10: on every generated maze the far-corner cell `(19, 19)` is `Path`, so
the goal-locating scan stops at its very first probe and always returns
exactly `(19, 19)` — the goal coordinate is constant across all generated
mazes, it coincides with the fallback default, and the fallback branch (the
`getD` default) is never taken because the scan yields `some`. -/
theorem C10_goal_constant (rng : Nat → List (Int × Int)) (hr : GoodRng rng) :
    generate_maze rng (MAZE_WIDTH - 2) (MAZE_HEIGHT - 2) = Tile.Path ∧
    scanRows (generate_maze rng) (MAZE_HEIGHT - 2) =
      some (MAZE_WIDTH - 2, MAZE_HEIGHT - 2) ∧
    locate_goal (generate_maze rng) = (MAZE_WIDTH - 2, MAZE_HEIGHT - 2) ∧
    restartLocate (generate_maze rng) = (MAZE_WIDTH - 2, MAZE_HEIGHT - 2) := by
  have h19 : generate_maze rng 19 19 = Tile.Path := gen_all_odd rng hr 9 (by omega) 9 (by omega)
  have hscan : scanRows (generate_maze rng) (MAZE_HEIGHT - 2) = some (19, 19) :=
    scanRows_eq_some (generate_maze rng) (MAZE_HEIGHT - 2) 19 19 (by omega) (by decide)
      (by omega) (by decide) h19
      (fun x2 ha hb => absurd (show x2 ≤ 19 from hb) (by omega))
      (fun x2 y2 ha hb hc hd => absurd (show y2 ≤ 19 from hd) (by omega))
  refine ⟨h19, hscan, ?_, ?_⟩
  · unfold locate_goal
    rw [hscan]
    rfl
  · rw [restartLocate_eq]
    unfold locate_goal
    rw [hscan]
    rfl

/-- Witness for C10 at the identity shuffle. -/
theorem C10_goal_constant_witness :
    generate_maze rng0 19 19 = Tile.Path ∧
    scanRows (generate_maze rng0) 19 = some (19, 19) ∧
    locate_goal (generate_maze rng0) = (19, 19) ∧
    restartLocate (generate_maze rng0) = (19, 19) :=
  C10_goal_constant rng0 (fun _ => List.Perm.refl _)

/-! ## Fuel adequacy: above the Wall-cell count, the fuel value is invisible,
so `carveF` with fuel `441` computes what the unbounded Rust recursion does. -/

theorem carveDirs_congr (rec1 rec2 : Nat → Nat → GenState → GenState) (g : Nat)
    (hrec12 : ∀ x y s, x % 2 = 1 → y % 2 = 1 → s.maze x y = Tile.Path →
        wallCount s.maze < g → rec1 x y s = rec2 x y s)
    (hrecM : ∀ x y s, x % 2 = 1 → y % 2 = 1 → s.maze x y = Tile.Path →
        Carved (mcOf s) (mcOf (rec1 x y s))) :
    ∀ (dirs : List (Int × Int)), (∀ d ∈ dirs, d ∈ baseDirs) →
    ∀ x y s, x % 2 = 1 → y % 2 = 1 → s.maze x y = Tile.Path →
    wallCount s.maze ≤ g →
    carveDirs rec1 x y dirs s = carveDirs rec2 x y dirs s
  | [], _, x, y, s, _, _, _, _ => rfl
  | (dx, dy) :: rest, hdirs, x, y, s, hox, hoy, hpath, hwc => by
    rw [carveDirs_cons, carveDirs_cons]
    by_cases hg : 0 < (x : Int) + dx ∧ 0 < (y : Int) + dy ∧
        ((x : Int) + dx).toNat < MAZE_WIDTH - 1 ∧ ((y : Int) + dy).toNat < MAZE_HEIGHT - 1
    · rw [if_pos hg, if_pos hg]
      by_cases hw : s.maze ((x : Int) + dx).toNat ((y : Int) + dy).toNat = Tile.Wall
      · rw [if_pos hw, if_pos hw]
        have hd : (dx, dy) ∈ baseDirs := hdirs _ (List.mem_cons_self _ _)
        have hstep : CarveStep (mcOf s)
            (mcOf (carvePaint (carvePaint s ((x : Int) + dx).toNat ((y : Int) + dy).toNat)
              ((x : Int) + Int.tdiv dx 2).toNat ((y : Int) + Int.tdiv dy 2).toNat)) := by
          rw [carvePaint_mcOf, carvePaint_mcOf]
          exact CarveStep.mk s.maze s.carves x y dx dy hd hox hoy hpath
            hg.1 hg.2.1 hg.2.2.1 hg.2.2.2 hw
        have hnodd : ((x : Int) + dx).toNat % 2 = 1 ∧ ((y : Int) + dy).toNat % 2 = 1 := by
          rcases baseDirs_cases hd with ⟨rfl, rfl⟩ | ⟨rfl, rfl⟩ | ⟨rfl, rfl⟩ | ⟨rfl, rfl⟩ <;>
            exact ⟨by omega, by omega⟩
        have hmidne : ¬(((x : Int) + dx).toNat = ((x : Int) + Int.tdiv dx 2).toNat ∧
            ((y : Int) + dy).toNat = ((y : Int) + Int.tdiv dy 2).toNat) := by
          rcases baseDirs_cases hd with ⟨rfl, rfl⟩ | ⟨rfl, rfl⟩ | ⟨rfl, rfl⟩ | ⟨rfl, rfl⟩ <;>
          · have ht2 : Int.tdiv 2 2 = 1 := by decide
            have htm2 : Int.tdiv (-2) 2 = -1 := by decide
            have ht0 : Int.tdiv (0 : Int) 2 = 0 := by decide
            simp only [ht2, htm2, ht0]
            omega
        have hs2path : (carvePaint (carvePaint s ((x : Int) + dx).toNat ((y : Int) + dy).toNat)
            ((x : Int) + Int.tdiv dx 2).toNat ((y : Int) + Int.tdiv dy 2).toNat).maze
            ((x : Int) + dx).toNat ((y : Int) + dy).toNat = Tile.Path := by
          rw [carvePaint_maze, carvePaint_maze]
          rw [setCell_of_ne _ _ _ _ hmidne]
          exact setCell_self _ _ _ _
        have hwc2 : wallCount (carvePaint (carvePaint s ((x : Int) + dx).toNat
            ((y : Int) + dy).toNat) ((x : Int) + Int.tdiv dx 2).toNat
            ((y : Int) + Int.tdiv dy 2).toNat).maze < g := by
          have h5 : wallCount (carvePaint (carvePaint s ((x : Int) + dx).toNat
              ((y : Int) + dy).toNat) ((x : Int) + Int.tdiv dx 2).toNat
              ((y : Int) + Int.tdiv dy 2).toNat).maze < wallCount s.maze :=
            carveStep_wallCount hstep
          omega
        have heq := hrec12 _ _ _ hnodd.1 hnodd.2 hs2path hwc2
        have hM := hrecM _ _ _ hnodd.1 hnodd.2 hs2path
        have hparent3 := carved_mono hM (carveStep_mono hstep hpath)
        have hwc3 : wallCount (rec1 ((x : Int) + dx).toNat ((y : Int) + dy).toNat
            (carvePaint (carvePaint s ((x : Int) + dx).toNat ((y : Int) + dy).toNat)
              ((x : Int) + Int.tdiv dx 2).toNat ((y : Int) + Int.tdiv dy 2).toNat)).maze ≤ g := by
          have h5 : wallCount (rec1 ((x : Int) + dx).toNat ((y : Int) + dy).toNat
              (carvePaint (carvePaint s ((x : Int) + dx).toNat ((y : Int) + dy).toNat)
                ((x : Int) + Int.tdiv dx 2).toNat ((y : Int) + Int.tdiv dy 2).toNat)).maze ≤
              wallCount (carvePaint (carvePaint s ((x : Int) + dx).toNat
                ((y : Int) + dy).toNat) ((x : Int) + Int.tdiv dx 2).toNat
                ((y : Int) + Int.tdiv dy 2).toNat).maze :=
            carved_wallCount hM
          omega
        have IH := carveDirs_congr rec1 rec2 g hrec12 hrecM rest
          (fun d hdm => hdirs d (List.mem_cons_of_mem _ hdm)) x y _ hox hoy hparent3 hwc3
        rw [← heq, IH]
      · rw [if_neg hw, if_neg hw]
        exact carveDirs_congr rec1 rec2 g hrec12 hrecM rest
          (fun d hdm => hdirs d (List.mem_cons_of_mem _ hdm)) x y s hox hoy hpath hwc
    · rw [if_neg hg, if_neg hg]
      exact carveDirs_congr rec1 rec2 g hrec12 hrecM rest
        (fun d hdm => hdirs d (List.mem_cons_of_mem _ hdm)) x y s hox hoy hpath hwc

theorem carveF_stable (rng : Nat → List (Int × Int)) (hr : GoodRng rng) :
    ∀ f x y s, x % 2 = 1 → y % 2 = 1 → s.maze x y = Tile.Path →
    wallCount s.maze < f → carveF rng f x y s = carveF rng (f + 1) x y s
  | 0, x, y, s, _, _, _, hlt => absurd hlt (by omega)
  | f + 1, x, y, s, hox, hoy, hpath, hlt => by
    rw [carveF_succ, carveF_succ]
    exact carveDirs_congr (carveF rng f) (carveF rng (f + 1)) f
      (fun a b s2 ha hb hp hwc => carveF_stable rng hr f a b s2 ha hb hp hwc)
      (fun a b s2 ha hb hp => carveF_carved rng hr f a b s2 ha hb hp)
      (rng s.k) (fun d hd => (hr s.k).mem_iff.mp hd) x y { s with k := s.k + 1 }
      hox hoy hpath (show wallCount s.maze ≤ f by omega)

/-- Any fuel above the Wall-cell count gives the same result: `FUEL = 441`
faithfully realises the unbounded recursion of the Rust `carve`. -/
theorem carveF_fuel_stable (rng : Nat → List (Int × Int)) (hr : GoodRng rng)
    (f f2 x y : Nat) (s : GenState) (hox : x % 2 = 1) (hoy : y % 2 = 1)
    (hpath : s.maze x y = Tile.Path) (hwc : wallCount s.maze < f) (hle : f ≤ f2) :
    carveF rng f x y s = carveF rng f2 x y s := by
  induction f2, hle using Nat.le_induction with
  | base => rfl
  | succ g hg IH =>
    rw [IH, carveF_stable rng hr g x y s hox hoy hpath (by omega)]

end MazeGame
